import Mathlib

/-!
Verification of the ruly rule-propagation engine core: the `Variant` value
lattice (src/variant.rs), the `Table`/`Ident`/`IdentPath` store (src/table.rs),
the evaluation algorithms (src/propagator.rs), the typed rule layer
(src/rule.rs, src/property.rs) and the money quantity (src/quantity/money.rs).

Rust `HashMap<Ident, Variant>` is embedded as an association list kept
strictly sorted by key (the canonical form of a finite map: two maps are
extensionally equal iff the sorted lists are equal), and `HashSet<Ident>` as a
strictly sorted list of idents.  Well-formedness (`Variant.wf`) states that
every table / set embedded in a value is in this canonical form, which is an
invariant of every value the Rust code can construct.
-/

/-- `Ident` from src/table.rs (same shape in src/variant.rs): three variants,
with equality and hash derived structurally (`derive(PartialEq, Eq, Hash)`).
Lean's `Eq`/`DecidableEq` on this inductive coincides with the derived
`PartialEq`: constructors are compared first, payloads second. -/
inductive Ident where
  | nonIntern (s : String)
  | intern (s : String)
  | anonymous (n : Nat)
deriving DecidableEq, Repr

/-- A sort key for `Ident`, used only to keep the association-list model of
`HashMap` in a canonical order (a `HashMap` itself is unordered). -/
def Ident.key : Ident → Lex (Nat × Lex (String × Nat))
  | .nonIntern s => toLex (0, toLex (s, 0))
  | .intern s => toLex (1, toLex (s, 0))
  | .anonymous n => toLex (2, toLex ("", n))

theorem Ident.key_injective : Function.Injective Ident.key := by
  intro a b h
  cases a <;> cases b <;>
    simp only [Ident.key, toLex_inj, Prod.mk.injEq] at h <;> simp_all

instance : LinearOrder Ident := LinearOrder.lift' Ident.key Ident.key_injective

/-- The error type from src/variant.rs is `Error::Detail(String)`: a single
textual detail.  It is embedded as the detail string. -/
abbrev RError := String

/-- The `f64` payload of `Variant::Float`.  The join only tests `==` on
floats, and IEEE `f64` equality is not reflexive: `NaN == x` is false for
every `x`, `NaN` included.  A float is therefore embedded as either the
not-a-number class `nan` or a finite/infinite value `num q` compared by
value (`0.0 == -0.0` holds in `f64`; both are the rational `0` here). -/
inductive RFloat where
  | nan
  | num (q : Rat)
deriving DecidableEq

/-- Rust `f64::eq` (`PartialEq`): false whenever either operand is NaN,
value comparison otherwise. -/
def RFloat.feq : RFloat → RFloat → Bool
  | .num a, .num b => a == b
  | .nan, _ => false
  | .num _, .nan => false

/-- `Variant` from src/variant.rs.  `NaiveDate` and `DateTime<Utc>` are
opaque scalars compared only by equality, embedded as `Int`; `f64` is
embedded as `RFloat`, compared by `RFloat.feq` in the join guard exactly as
the source compares with `f64::==`.  `Set(HashSet<Ident>)` is a sorted ident
list, `Table(Rc<Table>)` a sorted association list. -/
inductive Variant where
  | conflict (a b : Variant)
  | str (s : String)
  | date (d : Int)
  | instant (t : Int)
  | float (x : RFloat)
  | int (n : Int)
  | set (xs : List Ident)
  | table (ts : List (Ident × Variant))
  | invalid (e : RError)

/-- The `Table` of src/table.rs: a map of `Ident` to `Variant`, embedded as a
canonically sorted association list. -/
abbrev Table := List (Ident × Variant)

/-- `Variant::as_table` from src/variant.rs. -/
def Variant.as_table : Variant → Option Table
  | .table ts => some ts
  | _ => none

/-- `Table::get` from src/table.rs: `HashMap` point lookup. -/
def Table.get : Table → Ident → Option Variant
  | [], _ => none
  | (k1, v) :: t, k => if k = k1 then some v else Table.get t k

/-- Insert one element into the sorted-list model of `HashSet<Ident>`:
no effect when present (`HashSet::extend` keeps the first copy). -/
def RSet.insert_elem : List Ident → Ident → List Ident
  | [], x => [x]
  | y :: s, x =>
    if x = y then y :: s
    else if x < y then x :: y :: s
    else y :: RSet.insert_elem s x

/-- `self.0.extend(other.0)` of `Set::join_update` (src/variant.rs): fold the
other set's elements into self. -/
def RSet.extend : List Ident → List Ident → List Ident
  | s, [] => s
  | s, x :: rest => RSet.extend (RSet.insert_elem s x) rest

/-- `Lattice::join_update` for `Set` (src/variant.rs): union by extension, the
change flag is `self.0.len() > initial` exactly as in the source. -/
def RSet.join_update (a b : List Ident) : List Ident × Bool :=
  let u := RSet.extend a b
  (u, decide (a.length < u.length))

mutual

/-- `Lattice::join_update` for `Variant` (src/variant.rs lines 74-103),
state-passing form of `fn join_update(&mut self, other: Self) -> bool`:
returns the updated value and the change flag.  The match arms are in the
source's order; the scalar guard arms `(String(a), String(b)) if *a == b`
fall through, when the guard fails, to the final conflict arm, which the
`else` branches reproduce.  The float guard is `f64`'s partial equality
`RFloat.feq`, which fails on NaN operands, so `join(Float(NaN), Float(NaN))`
takes the conflict arm exactly as in the source. -/
def Variant.join_update : Variant → Variant → Variant × Bool
  | .set a, .set b =>
    let (s, c) := RSet.join_update a b
    (.set s, c)
  | .table a, .table b =>
    let (t, c) := Table.join_update a b
    (.table t, c)
  | .str a, .str b =>
    if a = b then (.str a, false) else (.conflict (.str a) (.str b), true)
  | .date a, .date b =>
    if a = b then (.date a, false) else (.conflict (.date a) (.date b), true)
  | .instant a, .instant b =>
    if a = b then (.instant a, false)
    else (.conflict (.instant a) (.instant b), true)
  | .float a, .float b =>
    if RFloat.feq a b then (.float a, false)
    else (.conflict (.float a) (.float b), true)
  | .int a, .int b =>
    if a = b then (.int a, false) else (.conflict (.int a) (.int b), true)
  | .conflict a b, _ => (.conflict a b, false)
  | _, .conflict p q => (.conflict p q, true)
  | a, .invalid _ => (a, false)
  | .invalid _, b => (b, true)
  | a, b => (.conflict a b, true)
termination_by a b => (sizeOf b, 0, 0)

/-- `Lattice::join_update` for `Table` (src/table.rs lines 45-58): fold the
other table's entries into self with `Table.join_entry`, or-ing the change
flags (`modified |= ...`). -/
def Table.join_update : Table → Table → Table × Bool
  | a, [] => (a, false)
  | a, (k, v) :: rest =>
    let (a1, c1) := Table.join_entry a k v
    let (a2, c2) := Table.join_update a1 rest
    (a2, c1 || c2)
termination_by a bs => (sizeOf bs, 2, 0)

/-- One entry of the `Table::join_update` loop body (src/table.rs lines
48-54): join `v` into the entry at `k` when present (`get_mut` +
`join_update`), else insert it, reporting a change.  Insertion keeps the
association list sorted, modelling `HashMap::insert` of a fresh key.  This is
also the model of `Table::join_entry` called by src/propagator.rs, which is
not among the repository's files; per the spec it joins a value into the
target entry, creating the entry if absent, and reports whether the stored
value changed. -/
def Table.join_entry : Table → Ident → Variant → Table × Bool
  | [], k, v => ([(k, v)], true)
  | (k1, u) :: a, k, v =>
    if k = k1 then
      let (w, c) := Variant.join_update u v
      ((k1, w) :: a, c)
    else if k < k1 then ((k, v) :: (k1, u) :: a, true)
    else
      let (a1, c) := Table.join_entry a k v
      ((k1, u) :: a1, c)
termination_by a k v => (sizeOf v, 1, sizeOf a)

end

/-- `Lattice::join` (src/variant.rs): defer to `join_update`, keep the value. -/
def Variant.join (a b : Variant) : Variant :=
  (Variant.join_update a b).1

/-- `Lattice::join` at `Table`. -/
def Table.join (a b : Table) : Table :=
  (Table.join_update a b).1

theorem RFloat.eq_of_feq {a b : RFloat} (h : RFloat.feq a b = true) :
    a = b := by
  cases a <;> cases b <;> simp_all [RFloat.feq]

theorem RFloat.feq_comm (a b : RFloat) : RFloat.feq a b = RFloat.feq b a := by
  cases a <;> cases b <;> simp [RFloat.feq, eq_comm]

theorem RFloat.feq_num (q : Rat) :
    RFloat.feq (RFloat.num q) (RFloat.num q) = true := by
  simp [RFloat.feq]

/-- A strictly ascending list of idents: the canonical order of the model of
a `HashSet<Ident>` or of a `HashMap` key list. -/
def ascending : List Ident → Bool
  | [] => true
  | [_] => true
  | x :: y :: s => decide (x < y) && ascending (y :: s)

mutual

/-- Well-formedness of an embedded value: every set and every nested table is
in canonical (strictly sorted) form.  Every value the Rust code builds from
`HashMap`/`HashSet` satisfies this. -/
def Variant.wf : Variant → Bool
  | .conflict a b => a.wf && b.wf
  | .set xs => ascending xs
  | .table ts => ascending (ts.map Prod.fst) && Table.wf_values ts
  | _ => true

/-- All values of a table are well-formed. -/
def Table.wf_values : List (Ident × Variant) → Bool
  | [] => true
  | kv :: rest => kv.2.wf && Table.wf_values rest

end

/-- Well-formedness of a table: sorted keys and well-formed values. -/
def Table.wf (t : Table) : Bool :=
  ascending (t.map Prod.fst) && Table.wf_values t

mutual

/-- No `Float(NaN)` occurs anywhere in the value, conflict payloads and
nested tables included.  Because `NaN == NaN` is false in `f64`, the float
guard of the join fails on NaN and `join(Float(NaN), Float(NaN))` is a
`Conflict`; idempotence of the join therefore holds exactly on NaN-free
values. -/
def Variant.nan_free : Variant → Bool
  | .conflict a b => a.nan_free && b.nan_free
  | .float RFloat.nan => false
  | .table ts => Table.nan_free_values ts
  | _ => true

/-- All values of a table are NaN-free. -/
def Table.nan_free_values : List (Ident × Variant) → Bool
  | [] => true
  | kv :: rest => kv.2.nan_free && Table.nan_free_values rest

end

mutual

/-- Erase the payloads of the two lattice extremes: every `Conflict` becomes
`Conflict(Int 0, Int 0)` and every `Invalid` becomes `Invalid("")`, here and
inside nested tables.  Two values are equal up to this erasure exactly when
they agree except for which pair of operands a conflict records and which
error detail an invalid carries. -/
def Variant.erase_tops : Variant → Variant
  | .conflict _ _ => .conflict (.int 0) (.int 0)
  | .invalid _ => .invalid ""
  | .table ts => .table (Table.erase_values ts)
  | .set xs => .set xs
  | .str s => .str s
  | .date d => .date d
  | .instant t => .instant t
  | .float x => .float x
  | .int n => .int n

/-- `Variant.erase_tops` applied to every value of a table. -/
def Table.erase_values : List (Ident × Variant) → List (Ident × Variant)
  | [] => []
  | (k, v) :: rest => (k, v.erase_tops) :: Table.erase_values rest

end

/-- `IdentPath` from src/table.rs: a non-empty path, a prefix of idents
naming successively nested tables and a final subject ident.  The source
calls the first field `prefix`; it is renamed `pre` here. -/
structure IdentPath where
  pre : List Ident
  subject : Ident

/-- The prefix walk of `Table::get_path` (src/table.rs lines 31-37): at each
prefix step `step = step.get(next)?.as_table()?`, then look up the subject in
the table reached. -/
def Table.get_path_from : Table → List Ident → Ident → Option Variant
  | step, [], subject => step.get subject
  | step, next :: rest, subject =>
    match (step.get next).bind Variant.as_table with
    | some step1 => Table.get_path_from step1 rest subject
    | none => none

/-- `Table::get_path` from src/table.rs. -/
def Table.get_path (t : Table) (p : IdentPath) : Option Variant :=
  Table.get_path_from t p.pre p.subject

/-- The `Propagator` trait of src/propagator.rs: a target ident, advisory
dependency paths, and a fire function reading the current table. -/
structure Propagator where
  target : Ident
  dependencies : List IdentPath
  fire : Table → Option Variant

/-- `evaluate_priority_once` from src/propagator.rs (lines 73-84): for each
rule in list order, if the target entry is absent, fire it, and join the
result into the (absent) entry, counting it as a change. -/
def evaluate_priority_once : Table → List Propagator → Table × Nat
  | table, [] => (table, 0)
  | table, rule :: rest =>
    if (Table.get table rule.target).isNone then
      match rule.fire table with
      | some b =>
        let t1 := (Table.join_entry table rule.target b).1
        let (t2, n) := evaluate_priority_once t1 rest
        (t2, n + 1)
      | none => evaluate_priority_once table rest
    else evaluate_priority_once table rest

/-- One full pass of `evaluate_naive` (the inner `for` loop of
src/propagator.rs lines 105-111): fire every rule against the current table,
join each produced value into its target entry and count the entries whose
join changed the stored value. -/
def run_pass : Table → List Propagator → Table × Nat
  | table, [] => (table, 0)
  | table, rule :: rest =>
    match rule.fire table with
    | some value =>
      let (t1, c) := Table.join_entry table rule.target value
      let (t2, n) := run_pass t1 rest
      (t2, (if c then 1 else 0) + n)
    | none => run_pass table rest

/-- The divergence error of `evaluate_naive`:
`Error::Detail(format!("exhausted {limit} iterations "))`. -/
def div_error (limit : Nat) : RError :=
  "exhausted " ++ toString limit ++ " iterations "

/-- The `loop` of `evaluate_naive` (src/propagator.rs lines 96-117), with the
iteration counter as an argument: increment the counter, break with the
divergence error when it exceeds the limit, otherwise run a full pass and
break with `Ok(iteration)` when the pass made no change. -/
def naive_go (rules : List Propagator) (limit : Nat) (table : Table)
    (iteration : Nat) : Table × Except RError Nat :=
  let iter1 := iteration + 1
  if iter1 > limit then (table, .error (div_error limit))
  else
    let (t1, changes) := run_pass table rules
    if changes = 0 then (t1, .ok iter1)
    else naive_go rules limit t1 iter1
termination_by limit - iteration

/-- `evaluate_naive` from src/propagator.rs (lines 91-117): the fixpoint
iteration started with the counter at 0, returning the final table and
either the iteration count at the fixpoint or the divergence error. -/
def evaluate_naive (table : Table) (rules : List Propagator) (limit : Nat) :
    Table × Except RError Nat :=
  naive_go rules limit table 0

/-- Modelled from the spec: `Path::query`, called by the `fire`
implementations of src/rule.rs but not among the repository's files.  Per the
spec (§4.3) it resolves the dependency path in the table and then
attempt-converts the stored value to the rule-level type; an absent entry or
a failed conversion both yield no value.  The `TryFrom<Variant>` conversion
of the rule's dependency type is passed as the function `tf`. -/
def Path.query {β : Type} (tf : Variant → Option β) (p : IdentPath)
    (state : Table) : Option β :=
  (Table.get_path state p).bind tf

/-- `fire` of `Rule<Property<A>, Path<B>, FuncOptional<F>>` (src/rule.rs lines
154-157): `Some((self.func.0)(self.input.query(state)?)?.into())`.  The
`Into<Variant>` conversion of the output type is passed as `into`. -/
def Rule.fire_optional {α β : Type} (into : α → Variant)
    (tf : Variant → Option β) (input : IdentPath) (func : β → Option α)
    (state : Table) : Option Variant :=
  match Path.query tf input state with
  | none => none
  | some b =>
    match func b with
    | none => none
    | some a => some (into a)

/-- `fire` of `Rule<Property<A>, Path<B>, FuncFallible<F>>` (src/rule.rs lines
173-180): a missing dependency yields `None`, `Ok(Some(x))` yields the
converted value, `Ok(None)` yields `None` and `Err(e)` yields
`Some(Variant::Invalid(e))`. -/
def Rule.fire_fallible {α β : Type} (into : α → Variant)
    (tf : Variant → Option β) (input : IdentPath)
    (func : β → Except RError (Option α)) (state : Table) : Option Variant :=
  match Path.query tf input state with
  | none => none
  | some b =>
    match func b with
    | .ok (some x) => some (into x)
    | .ok none => none
    | .error e => some (.invalid e)

/-- `fire` of the arity-2 rule (src/rule.rs lines 197-199):
`Some((self.func.0)((self.input.0.query(state)?, self.input.1.query(state)?))?.into())`. -/
def Rule.fire_optional2 {α β γ : Type} (into : α → Variant)
    (tf1 : Variant → Option β) (tf2 : Variant → Option γ)
    (input1 input2 : IdentPath) (func : β × γ → Option α)
    (state : Table) : Option Variant :=
  match Path.query tf1 input1 state with
  | none => none
  | some b =>
    match Path.query tf2 input2 state with
    | none => none
    | some c =>
      match func (b, c) with
      | none => none
      | some a => some (into a)

/-- `i64::MIN`. -/
def i64_min : Int := -(2 ^ 63)

/-- `i64::MAX`. -/
def i64_max : Int := 2 ^ 63 - 1

/-- `i64::abs` with release-mode wrapping semantics: `i64::MIN.abs()` wraps
to `i64::MIN` itself (two's complement negation overflow). -/
def i64_wrapping_abs (v : Int) : Int :=
  if v < 0 then (if v = i64_min then i64_min else -v) else v

/-- Decimal digit characters of a natural number, most significant first;
the fuel argument (any bound above the number) makes the recursion
structural. -/
def nat_to_chars_go : Nat → Nat → List Char
  | 0, _ => []
  | fuel + 1, n =>
    if n < 10 then [Char.ofNat (48 + n)]
    else nat_to_chars_go fuel (n / 10) ++ [Char.ofNat (48 + n % 10)]

/-- Decimal digit characters of a natural number, most significant first. -/
def nat_to_chars (n : Nat) : List Char :=
  nat_to_chars_go (n + 1) n

/-- Decimal rendering of an integer, as Rust's `Display` for `i64`. -/
def int_to_chars (i : Int) : List Char :=
  if i < 0 then '-' :: nat_to_chars i.natAbs else nat_to_chars i.natAbs

/-- Rust's zero-padding format `{:0w$}`: pad with zeros after the sign, up to
a total width of `w` (truncated subtraction makes padding a no-op when the
rendering is already wide enough). -/
def zero_pad (w : Nat) (s : List Char) : List Char :=
  match s with
  | [] => List.replicate w '0'
  | c :: rest =>
    if c = '-' then c :: (List.replicate (w - 1 - rest.length) '0' ++ rest)
    else List.replicate (w - (c :: rest).length) '0' ++ c :: rest

/-- `Display for Money<C>` (src/quantity/money.rs lines 111-127) for a
currency with `SYMBOL = "$"` and `PRECISION = 2`: sign, symbol, and the
zero-padded magnitude split two digits before its end. -/
def money_format (cents : Int) : List Char :=
  let sign := if cents < 0 then ['-'] else []
  let magnitude := zero_pad 3 (int_to_chars (i64_wrapping_abs cents))
  let split := magnitude.length - 2
  sign ++ ['$'] ++ magnitude.take split ++ ['.'] ++ magnitude.drop split

/-- `nom::character::complete::multispace0`: spaces, tabs, carriage returns
and line feeds. -/
def is_space (c : Char) : Bool :=
  c = ' ' || c = '\t' || c = '\n' || c = '\r'

/-- Drop leading whitespace (`multispace0`). -/
def drop_spaces (s : List Char) : List Char :=
  s.dropWhile is_space

/-- `opt(terminated(one_of("+-"), spaces))`: an optional sign character
followed by whitespace. -/
def opt_sign : List Char → Option Char × List Char
  | [] => (none, [])
  | c :: rest =>
    if c = '+' || c = '-' then (some c, drop_spaces rest) else (none, c :: rest)

/-- `opt(terminated(tag(SYMBOL), spaces))` for `SYMBOL = "$"`. -/
def opt_symbol : List Char → Bool × List Char
  | '$' :: rest => (true, drop_spaces rest)
  | s => (false, s)

/-- `opt(digit1)`: the maximal nonempty run of ASCII digits, if any. -/
def take_digits (s : List Char) : Option (List Char) × List Char :=
  let ds := s.takeWhile Char.isDigit
  if ds.isEmpty then (none, s) else (ds, s.dropWhile Char.isDigit)

/-- `opt(preceded(tag("."), opt(digit1)))`. -/
def opt_frac : List Char → Option (Option (List Char)) × List Char
  | '.' :: rest =>
    let (ds, r) := take_digits rest
    (some ds, r)
  | s => (none, s)

/-- The value of a run of decimal digit characters. -/
def chars_to_nat (s : List Char) : Nat :=
  s.foldl (fun acc c => acc * 10 + (c.toNat - 48)) 0

/-- `str::parse::<i64>` on a digit-only string: its value, or an error on
overflow past `i64::MAX`. -/
def parse_i64 (s : List Char) : Except RError Int :=
  let n := chars_to_nat s
  if (n : Int) > i64_max then .error "error in money value" else .ok (n : Int)

/-- `value += x.parse::<i64>()? * C::FACTOR` for the whole part (absent part
contributes nothing). -/
def whole_value : Option (List Char) → Except RError Int
  | none => .ok 0
  | some ds => (parse_i64 ds).map (· * 100)

/-- The fractional contribution: parse the digits and rescale them to
`PRECISION = 2` places (multiply when shorter, truncating divide when
longer); absent digits contribute nothing. -/
def frac_value : Option (Option (List Char)) → Except RError Int
  | some (some ds) =>
    (parse_i64 ds).map fun f0 =>
      let prec := ds.length
      if prec < 2 then f0 * (10 : Int) ^ (2 - prec)
      else if prec > 2 then f0 / (10 : Int) ^ (prec - 2)
      else f0
  | _ => .ok 0

/-- `FromStr for Money<C>` (src/quantity/money.rs lines 56-109) for
`SYMBOL = "$"`, `PRECISION = 2`: the nom pipeline
`all_consuming(terminated(tuple((opt sign, opt symbol, opt sign, opt digits,
opt frac)), spaces))`, then the value computation and the sign match
(`(Some('-'), None) | (None, Some('-'))` negates, `(None, None)` keeps, any
other sign combination errors). -/
def money_from_str (input : List Char) : Except RError Int :=
  let error := "error in money value"
  let (sign1, r1) := opt_sign input
  let (_sym, r2) := opt_symbol r1
  let (sign2, r3) := opt_sign r2
  let (whole, r4) := take_digits r3
  let (frac, r5) := opt_frac r4
  if drop_spaces r5 ≠ [] then .error error
  else
    match whole_value whole, frac_value frac with
    | .ok w, .ok f =>
      let value := w + f
      match sign1, sign2 with
      | some '-', none => .ok (-value)
      | none, some '-' => .ok (-value)
      | none, none => .ok value
      | _, _ => .error error
    | .error e, _ => .error e
    | _, .error e => .error e

/-- The value kind tests used to state domination laws. -/
def Variant.is_conflict : Variant → Bool
  | .conflict _ _ => true
  | _ => false

/-- Whether a variant is of kind `Invalid`. -/
def Variant.is_invalid : Variant → Bool
  | .invalid _ => true
  | _ => false

theorem Table.get_join_entry_ne (t : Table) (tgt k : Ident) (b : Variant)
    (h : k ≠ tgt) : Table.get (Table.join_entry t tgt b).1 k = Table.get t k := by
  induction t with
  | nil => simp [Table.join_entry, Table.get, h]
  | cons kv rest ih =>
    obtain ⟨k1, u⟩ := kv
    by_cases h1 : tgt = k1
    · subst h1
      simp only [Table.join_entry, if_pos rfl]
      simp [Table.get, show ¬(k = tgt) from h]
    · rcases lt_or_gt_of_ne (fun hh => h1 hh) with hlt | hgt
      · simp only [Table.join_entry, if_neg h1, if_pos hlt]
        simp [Table.get, show ¬(k = tgt) from h]
      · have hnlt : ¬tgt < k1 := not_lt_of_gt hgt
        simp only [Table.join_entry, if_neg h1, if_neg hnlt]
        by_cases hk : k = k1
        · simp [Table.get, hk]
        · simp [Table.get, hk, ih]

/-- C5 counterexample: at text "a", the interned and non-interned forms do
not compare equal under the derived `PartialEq`, refuting the claim at a
concrete input. -/
theorem c5_ident_eq_counterexample :
    (Ident.intern "a" = Ident.nonIntern "a") = False := by
  simp

/-- C5 (amended): `Ident` equality is the derived structural equality, which
compares the variant first: `Intern(s)` and `NonIntern(t)` never compare
equal, even when `s` and `t` hold the same text, while equality within one
variant is by the text; consequently the two forms address distinct `Table`
entries (a table holding only an `Intern(s)` entry yields nothing for
`NonIntern(t)`). -/
theorem c5_ident_eq_structural (s t : String) (v : Variant) :
    (Ident.intern s = Ident.nonIntern t) = False ∧
    ((Ident.intern s = Ident.intern t) ↔ s = t) ∧
    ((Ident.nonIntern s = Ident.nonIntern t) ↔ s = t) ∧
    Table.get [(Ident.intern s, v)] (Ident.nonIntern t) = none := by
  refine ⟨by simp, by simp, by simp, ?_⟩
  simp [Table.get]

/-- C7: `Table::get_path` walks the prefix through nested table variants and
looks the subject up in the last table reached; a missing prefix entry, a
prefix entry that is not a table, or a missing subject yields `None`.  The
last two conjuncts are the spec's scenario: in
`Table{customer: Table{address: Table{city: "X"}}}` the path
`customer/address/city` resolves to `"X"` and `customer/missing/city`
resolves to absence. -/
theorem c7_get_path (t u : Table) (pre : List Ident) (i s : Ident) :
    Table.get_path t ⟨[], s⟩ = Table.get t s ∧
    (Table.get t i = some (Variant.table u) →
      Table.get_path t ⟨i :: pre, s⟩ = Table.get_path u ⟨pre, s⟩) ∧
    (Table.get t i = none → Table.get_path t ⟨i :: pre, s⟩ = none) ∧
    (∀ v, Table.get t i = some v → v.as_table = none →
      Table.get_path t ⟨i :: pre, s⟩ = none) ∧
    Table.get_path
      [(Ident.intern "customer", Variant.table
        [(Ident.intern "address", Variant.table
          [(Ident.intern "city", Variant.str "X")])])]
      ⟨[Ident.intern "customer", Ident.intern "address"], Ident.intern "city"⟩ =
        some (Variant.str "X") ∧
    Table.get_path
      [(Ident.intern "customer", Variant.table
        [(Ident.intern "address", Variant.table
          [(Ident.intern "city", Variant.str "X")])])]
      ⟨[Ident.intern "customer", Ident.intern "missing"], Ident.intern "city"⟩ =
        none := by
  refine ⟨rfl, ?_, ?_, ?_, by rfl, by rfl⟩
  · intro h
    simp [Table.get_path, Table.get_path_from, h, Variant.as_table]
  · intro h
    simp [Table.get_path, Table.get_path_from, h]
  · intro v hv hnt
    simp [Table.get_path, Table.get_path_from, hv, hnt]

theorem evaluate_priority_preserves (t : Table) (rules : List Propagator)
    (id : Ident) (v : Variant) (h : Table.get t id = some v) :
    Table.get (evaluate_priority_once t rules).1 id = some v := by
  induction rules generalizing t with
  | nil => simpa [evaluate_priority_once]
  | cons rule rest ih =>
    by_cases habs : (Table.get t rule.target).isNone
    · cases hf : rule.fire t with
      | none => simpa [evaluate_priority_once, habs, hf] using ih t h
      | some b =>
        have hne : id ≠ rule.target := by
          intro he
          rw [he] at h
          rw [h] at habs
          simp at habs
        have hget :
            Table.get (Table.join_entry t rule.target b).1 id = some v := by
          rw [Table.get_join_entry_ne t rule.target id b hne]
          exact h
        simpa [evaluate_priority_once, habs, hf] using
          ih (Table.join_entry t rule.target b).1 hget
    · simpa [evaluate_priority_once, habs] using ih t h

/-- C4: `evaluate_priority_once` visits the rules in list order, fires a rule
only when its target is currently absent, stores the produced value at the
target (joining into an absent entry is a plain insert) and counts the
entries filled; an entry already present is never overwritten (first
conjunct), so with two always-succeeding rules targeting `x` producing 1 and
2, order decides: `[A, B]` leaves `x = 1` and `[B, A]` leaves `x = 2`, one
entry filled in each case. -/
theorem c4_priority_fill (t : Table) (rules : List Propagator) (id : Ident)
    (v : Variant) :
    (Table.get t id = some v →
      Table.get (evaluate_priority_once t rules).1 id = some v) ∧
    evaluate_priority_once []
        [⟨Ident.intern "x", [], fun _ => some (.int 1)⟩,
         ⟨Ident.intern "x", [], fun _ => some (.int 2)⟩] =
      ([(Ident.intern "x", Variant.int 1)], 1) ∧
    evaluate_priority_once []
        [⟨Ident.intern "x", [], fun _ => some (.int 2)⟩,
         ⟨Ident.intern "x", [], fun _ => some (.int 1)⟩] =
      ([(Ident.intern "x", Variant.int 2)], 1) := by
  refine ⟨fun h => evaluate_priority_preserves t rules id v h, ?_, ?_⟩ <;>
    simp [evaluate_priority_once, Table.get, Table.join_entry]

/-- C10: the iteration limit is checked before any pass, so `limit = 0`
returns the divergence error at once with the table untouched, whatever the
rules; and the final, all-unchanged pass is itself counted, so an empty rule
list under any positive limit returns `Ok(1)`. -/
theorem c10_limit_edge_cases (t : Table) (rules : List Propagator)
    (limit : Nat) :
    evaluate_naive t rules 0 = (t, .error (div_error 0)) ∧
    (1 ≤ limit → evaluate_naive t [] limit = (t, .ok 1)) := by
  constructor
  · simp [evaluate_naive, naive_go]
  · intro hl
    have hnot : ¬(0 + 1 > limit) := by omega
    simp [evaluate_naive, naive_go, hnot, run_pass]

/-- C2 counterexample: when the left operand is already a `Conflict`, a
joined-in `Conflict(p,q)` does not replace it — the first match arm keeps the
left conflict unchanged — refuting `join(v, Conflict(p,q)) == Conflict(p,q)`
for `v = Conflict(Int 1, Int 2)`, `p = Int 3`, `q = Int 4`. -/
theorem c2_conflict_counterexample :
    (Variant.join (.conflict (.int 1) (.int 2)) (.conflict (.int 3) (.int 4)) =
      .conflict (.int 3) (.int 4)) = False := by
  simp [Variant.join, Variant.join_update]

/-- C2 (amended): `Invalid` is dominated by every non-Invalid, non-Conflict
variant on either side; a `Conflict` on the left absorbs anything; a
`Conflict(p,q)` joined into any non-Conflict variant replaces it; and joining
a conflict into an existing conflict keeps the existing one (the result is
still a conflict, never a non-conflict, so conflict remains terminal). -/
theorem c2_invalid_conflict_domination (e : RError) (p q v w : Variant)
    (hvi : v.is_invalid = false) (hvc : v.is_conflict = false)
    (hwc : w.is_conflict = false) :
    Variant.join (.invalid e) v = v ∧
    Variant.join v (.invalid e) = v ∧
    Variant.join (.conflict p q) w = .conflict p q ∧
    Variant.join w (.conflict p q) = .conflict p q ∧
    (∀ r s : Variant,
      Variant.join (.conflict r s) (.conflict p q) = .conflict r s) := by
  refine ⟨?_, ?_, ?_, ?_, fun r s => by simp [Variant.join, Variant.join_update]⟩
  · cases v <;> simp_all [Variant.join, Variant.join_update, Variant.is_invalid,
      Variant.is_conflict]
  · cases v <;> simp_all [Variant.join, Variant.join_update, Variant.is_invalid,
      Variant.is_conflict]
  · cases w <;> simp [Variant.join, Variant.join_update]
  · cases w <;> simp_all [Variant.join, Variant.join_update, Variant.is_conflict]

/-- C2 witness: the domination laws at concrete inputs
(`v = Int 7`, `w = Str "w"`, `p = Int 3`, `q = Int 4`). -/
theorem c2_invalid_conflict_domination_witness :
    Variant.join (.invalid "e") (.int 7) = .int 7 ∧
    Variant.join (.int 7) (.invalid "e") = .int 7 ∧
    Variant.join (.conflict (.int 3) (.int 4)) (.str "w") =
      .conflict (.int 3) (.int 4) ∧
    Variant.join (.str "w") (.conflict (.int 3) (.int 4)) =
      .conflict (.int 3) (.int 4) ∧
    (∀ r s : Variant,
      Variant.join (.conflict r s) (.conflict (.int 3) (.int 4)) =
        .conflict r s) :=
  c2_invalid_conflict_domination "e" (.int 3) (.int 4) (.int 7) (.str "w")
    rfl rfl rfl

/-- C8: `fire` of a built rule first extracts the declared dependency values
and returns `None` — without invoking the rule function — when a dependency
is absent or its conversion fails (first two conjuncts quantify over every
function); with the dependency present, a `None` function result yields
`None`, a fallible `Err(e)` yields `Some(Invalid(e))`, and a successful
typed result is converted through the output type's `Into<Variant>`.  The
last conjunct is the arity-2 form: either missing dependency suppresses the
call. -/
theorem c8_rule_fire {α β γ : Type} (into : α → Variant)
    (tf : Variant → Option β) (tf2 : Variant → Option γ)
    (input inp1 inp2 : IdentPath) (state : Table) (b : β) (a : α)
    (e : RError) :
    (Path.query tf input state = none →
      (∀ func : β → Option α,
        Rule.fire_optional into tf input func state = none) ∧
      (∀ func : β → Except RError (Option α),
        Rule.fire_fallible into tf input func state = none)) ∧
    (Path.query tf input state = some b →
      (∀ func : β → Option α, func b = none →
        Rule.fire_optional into tf input func state = none) ∧
      (∀ func : β → Option α, func b = some a →
        Rule.fire_optional into tf input func state = some (into a)) ∧
      (∀ func : β → Except RError (Option α), func b = .error e →
        Rule.fire_fallible into tf input func state =
          some (.invalid e)) ∧
      (∀ func : β → Except RError (Option α), func b = .ok (some a) →
        Rule.fire_fallible into tf input func state = some (into a)) ∧
      (∀ func : β → Except RError (Option α), func b = .ok none →
        Rule.fire_fallible into tf input func state = none)) ∧
    (Path.query tf inp1 state = none ∨ Path.query tf2 inp2 state = none →
      ∀ func : β × γ → Option α,
        Rule.fire_optional2 into tf tf2 inp1 inp2 func state = none) := by
  refine ⟨fun h => ⟨fun func => ?_, fun func => ?_⟩,
    fun h => ⟨fun func hf => ?_, fun func hf => ?_, fun func hf => ?_,
      fun func hf => ?_, fun func hf => ?_⟩,
    fun h func => ?_⟩ <;>
    first
      | simp [Rule.fire_optional, Rule.fire_fallible, *]
      | (rcases h with h | h <;>
          simp [Rule.fire_optional2, h] <;>
          cases hq : Path.query tf inp1 state <;> simp [hq, h])

theorem RSet.insert_elem_eq_or (s : List Ident) (x : Ident) :
    RSet.insert_elem s x = s ∨
      (RSet.insert_elem s x).length = s.length + 1 := by
  induction s with
  | nil => right; rfl
  | cons y t ih =>
    by_cases hxy : x = y
    · left; simp [RSet.insert_elem, hxy]
    · by_cases hlt : x < y
      · right; simp [RSet.insert_elem, hxy, hlt]
      · rcases ih with h | h
        · left; simp [RSet.insert_elem, hxy, hlt, h]
        · right; simp [RSet.insert_elem, hxy, hlt, h]

theorem RSet.length_le_insert_elem (s : List Ident) (x : Ident) :
    s.length ≤ (RSet.insert_elem s x).length := by
  rcases RSet.insert_elem_eq_or s x with h | h <;> simp [h]

theorem RSet.length_le_extend (a b : List Ident) :
    a.length ≤ (RSet.extend a b).length := by
  induction b generalizing a with
  | nil => simp [RSet.extend]
  | cons x rest ih =>
    calc a.length ≤ (RSet.insert_elem a x).length :=
          RSet.length_le_insert_elem a x
      _ ≤ (RSet.extend (RSet.insert_elem a x) rest).length := ih _
      _ = (RSet.extend a (x :: rest)).length := rfl

theorem RSet.extend_eq_of_length (a b : List Ident)
    (h : (RSet.extend a b).length = a.length) : RSet.extend a b = a := by
  induction b generalizing a with
  | nil => rfl
  | cons x rest ih =>
    have hx : RSet.insert_elem a x = a := by
      rcases RSet.insert_elem_eq_or a x with h1 | h1
      · exact h1
      · exfalso
        have h2 := RSet.length_le_extend (RSet.insert_elem a x) rest
        rw [h1] at h2
        have h3 : RSet.extend a (x :: rest) =
            RSet.extend (RSet.insert_elem a x) rest := rfl
        rw [h3] at h
        omega
    have h3 : RSet.extend a (x :: rest) =
        RSet.extend (RSet.insert_elem a x) rest := rfl
    rw [h3, hx] at h ⊢
    exact ih a h

theorem Variant.join_update_false :
    ∀ a b : Variant, (Variant.join_update a b).2 = false →
      (Variant.join_update a b).1 = a := by
  apply Variant.join_update.induct
    (fun a b => (Variant.join_update a b).2 = false →
      (Variant.join_update a b).1 = a)
    (fun a bs => (Table.join_update a bs).2 = false →
      (Table.join_update a bs).1 = a)
    (fun a k v => (Table.join_entry a k v).2 = false →
      (Table.join_entry a k v).1 = a)
  case _ =>
    intro a b s c _ h
    simp only [Variant.join_update, RSet.join_update] at h ⊢
    simp only [decide_eq_false_iff_not, not_lt] at h
    have hlen : (RSet.extend a b).length = a.length :=
      le_antisymm h (RSet.length_le_extend a b)
    simp [RSet.extend_eq_of_length a b hlen]
  case _ =>
    intro a b t c _ ih h
    simp only [Variant.join_update] at h ⊢
    simp_all
  case _ => intro b _; simp [Variant.join_update]
  case _ => intro a b hne h; simp [Variant.join_update, hne] at h
  case _ => intro b _; simp [Variant.join_update]
  case _ => intro a b hne h; simp [Variant.join_update, hne] at h
  case _ => intro b _; simp [Variant.join_update]
  case _ => intro a b hne h; simp [Variant.join_update, hne] at h
  case _ => intro a b hf _; simp [Variant.join_update, hf]
  case _ => intro a b hne h; simp [Variant.join_update, hne] at h
  case _ => intro b _; simp [Variant.join_update]
  case _ => intro a b hne h; simp [Variant.join_update, hne] at h
  case _ => intro a b x _; simp [Variant.join_update]
  case _ =>
    intro x p q hx h
    exfalso
    cases x <;> simp [Variant.join_update] at h
    exact hx _ _ rfl
  case _ =>
    intro a e ha _
    cases a <;> simp [Variant.join_update]
  case _ =>
    intro e b hbc hbi h
    cases b
    case conflict p q => exact absurd rfl (hbc p q)
    case invalid e2 => exact absurd rfl (hbi e2)
    all_goals simp [Variant.join_update] at h
  case _ =>
    intro a b hset htab hstr hdate hinst hfloat hint hac hbc hbi hai h
    exfalso
    cases a <;> cases b <;>
      first
        | exact hac _ _ rfl
        | exact hbc _ _ rfl
        | exact hbi _ rfl
        | exact hai _ rfl
        | exact hset _ _ rfl rfl
        | exact htab _ _ rfl rfl
        | exact hstr _ _ rfl rfl
        | exact hdate _ _ rfl rfl
        | exact hinst _ _ rfl rfl
        | exact hfloat _ _ rfl rfl
        | exact hint _ _ rfl rfl
        | simp [Variant.join_update] at h
  case _ => intro a _; simp [Table.join_update]
  case _ =>
    intro a k v rest t c he t1 c1 hu ih3 ih2 h
    simp only [Table.join_update, he, hu] at h ⊢
    rcases Bool.or_eq_false_iff.mp h with ⟨hc, hc1⟩
    subst hc hc1
    have h1 : t = a := by
      have := ih3 (by rw [he])
      rw [he] at this
      exact this
    subst h1
    have h2 : t1 = t := by
      have := ih2 (by rw [hu])
      rw [hu] at this
      exact this
    exact h2
  case _ => intro k v h; simp [Table.join_entry] at h
  case _ =>
    intro u a k v w c hju ih h
    simp only [Table.join_entry, if_pos rfl, hju] at h ⊢
    subst h
    have h1 : w = u := by
      have := ih (by rw [hju])
      rw [hju] at this
      exact this
    simp [h1]
  case _ => intro k1 u a k v hne hlt h; simp [Table.join_entry, hne, hlt] at h
  case _ =>
    intro k1 u a k v hne hnlt t c he ih h
    simp only [Table.join_entry, if_neg hne, if_neg hnlt, he] at h ⊢
    have h1 : t = a := by
      have := ih (by rw [he]; exact h)
      rw [he] at this
      exact this
    simp [h1]

theorem Table.join_entry_false (a : Table) (k : Ident) (v : Variant)
    (h : (Table.join_entry a k v).2 = false) :
    (Table.join_entry a k v).1 = a := by
  induction a with
  | nil => simp [Table.join_entry] at h
  | cons kv t ih =>
    obtain ⟨k1, u⟩ := kv
    by_cases hk : k = k1
    · subst hk
      simp only [Table.join_entry, if_pos rfl] at h ⊢
      have h1 := Variant.join_update_false u v h
      simp [h1]
    · by_cases hlt : k < k1
      · simp [Table.join_entry, hk, hlt] at h
      · simp only [Table.join_entry, if_neg hk, if_neg hlt] at h ⊢
        simp [ih h]

theorem run_pass_zero (rules : List Propagator) (t : Table)
    (h : (run_pass t rules).2 = 0) : (run_pass t rules).1 = t := by
  induction rules generalizing t with
  | nil => simp [run_pass]
  | cons rule rest ih =>
    cases hf : rule.fire t with
    | none =>
      simp only [run_pass, hf] at h ⊢
      exact ih t h
    | some value =>
      simp only [run_pass, hf] at h ⊢
      rcases Nat.add_eq_zero.mp h with ⟨hc, hn⟩
      have hc0 : (Table.join_entry t rule.target value).2 = false := by
        by_contra hcc
        simp [Bool.not_eq_false] at hcc
        simp [hcc] at hc
      have ht1 := Table.join_entry_false t rule.target value hc0
      rw [ht1] at hn ⊢
      exact ih t hn

/-- C3: `evaluate_naive` always terminates with one of two outcomes: either
`Ok(n)` for some `n <= limit` and the returned table is a fixpoint of a full
pass (re-running the pass changes nothing and counts zero changes), or the
divergence error naming the limit; it never iterates beyond the limit. -/
theorem c3_naive_terminates (t : Table) (rules : List Propagator)
    (limit : Nat) :
    (∃ n, (evaluate_naive t rules limit).2 = .ok n ∧ n ≤ limit ∧
      run_pass (evaluate_naive t rules limit).1 rules =
        ((evaluate_naive t rules limit).1, 0)) ∨
    (evaluate_naive t rules limit).2 = .error (div_error limit) := by
  suffices main : ∀ f iteration t, limit - iteration = f →
      (∃ n, (naive_go rules limit t iteration).2 = .ok n ∧ n ≤ limit ∧
        run_pass (naive_go rules limit t iteration).1 rules =
          ((naive_go rules limit t iteration).1, 0)) ∨
      (naive_go rules limit t iteration).2 = .error (div_error limit) by
    exact main (limit - 0) 0 t rfl
  intro f
  induction f using Nat.strong_induction_on with
  | _ f ih =>
    intro iteration t hf
    by_cases hgt : iteration + 1 > limit
    · right
      rw [naive_go]
      simp [hgt]
    · cases hrp : run_pass t rules with
      | mk t1 changes =>
        by_cases hch : changes = 0
        · left
          subst hch
          have ht1 : t1 = t := by
            have := run_pass_zero rules t (by rw [hrp])
            rw [hrp] at this
            exact this
          refine ⟨iteration + 1, ?_, by omega, ?_⟩ <;>
            (rw [naive_go]; simp [hgt, hrp, ht1])
        · have hstep : naive_go rules limit t iteration =
              naive_go rules limit t1 (iteration + 1) := by
            rw [naive_go]
            simp [hgt, hrp, hch]
          rw [hstep]
          exact ih (limit - (iteration + 1)) (by omega) (iteration + 1) t1 rfl

theorem ascending_cons {x : Ident} {l : List Ident}
    (h : ascending (x :: l) = true) :
    ascending l = true ∧ ∀ y ∈ l, x < y := by
  induction l generalizing x with
  | nil => simp [ascending]
  | cons y t ih =>
    simp only [ascending, Bool.and_eq_true, decide_eq_true_eq] at h
    obtain ⟨hxy, ht⟩ := h
    obtain ⟨ht1, hall⟩ := ih ht
    refine ⟨ht, ?_⟩
    intro z hz
    rcases List.mem_cons.mp hz with rfl | hz
    · exact hxy
    · exact lt_trans hxy (hall z hz)

theorem Table.get_eq_none_of_not_mem {t : Table} {k : Ident}
    (h : k ∉ t.map Prod.fst) : Table.get t k = none := by
  induction t with
  | nil => rfl
  | cons kv rest ih =>
    obtain ⟨k1, v⟩ := kv
    simp only [List.map_cons, List.mem_cons] at h
    push_neg at h
    simp [Table.get, h.1, ih h.2]


theorem ascending_cons_iff {x : Ident} {l : List Ident} :
    ascending (x :: l) = true ↔
      ascending l = true ∧ ∀ y ∈ l, x < y := by
  constructor
  · intro h
    obtain ⟨h1, h2⟩ := ascending_cons h
    exact ⟨h1, h2⟩
  · rintro ⟨h1, h2⟩
    cases l with
    | nil => simp [ascending]
    | cons z zs =>
      simp only [ascending, Bool.and_eq_true, decide_eq_true_eq]
      exact ⟨h2 z (List.mem_cons_self z zs), h1⟩

theorem Table.join_entry_keys (t : Table) (k : Ident) (v : Variant)
    (x : Ident) :
    x ∈ (Table.join_entry t k v).1.map Prod.fst ↔
      x = k ∨ x ∈ t.map Prod.fst := by
  induction t with
  | nil => simp [Table.join_entry]
  | cons kv rest ih =>
    obtain ⟨k1, u⟩ := kv
    rcases eq_or_ne k k1 with hk | hk
    · subst hk
      simp [Table.join_entry]
    · rcases lt_or_gt_of_ne hk with hlt | hgt
      · simp [Table.join_entry, hk, hlt]
      · simp [Table.join_entry, hk, not_lt_of_gt hgt, ih]
        tauto

theorem Table.join_entry_ascending (t : Table) (k : Ident) (v : Variant)
    (ht : ascending (t.map Prod.fst) = true) :
    ascending ((Table.join_entry t k v).1.map Prod.fst) = true := by
  induction t with
  | nil => simp [Table.join_entry, ascending]
  | cons kv rest ih =>
    obtain ⟨k1, u⟩ := kv
    simp only [List.map_cons] at ht
    rw [ascending_cons_iff] at ht
    obtain ⟨hrest, hall⟩ := ht
    rcases eq_or_ne k k1 with hk | hk
    · subst hk
      simp only [Table.join_entry, if_true, List.map_cons]
      rw [ascending_cons_iff]
      exact ⟨hrest, hall⟩
    · rcases lt_or_gt_of_ne hk with hlt | hgt
      · simp only [Table.join_entry, if_neg hk, if_pos hlt, List.map_cons]
        rw [ascending_cons_iff, ascending_cons_iff]
        refine ⟨⟨hrest, hall⟩, ?_⟩
        intro y hy
        rcases List.mem_cons.mp hy with rfl | hy
        · exact hlt
        · exact lt_trans hlt (hall y hy)
      · have hne : ¬(k = k1) := hk
        have hnlt : ¬(k < k1) := not_lt_of_gt hgt
        simp only [Table.join_entry, if_neg hne, if_neg hnlt]
        simp only [List.map_cons]
        rw [ascending_cons_iff]
        refine ⟨ih hrest, ?_⟩
        intro y hy
        rcases (Table.join_entry_keys rest k v y).mp hy with rfl | hy
        · exact hgt
        · exact hall y hy

theorem Table.get_join_entry_self (t : Table) (k : Ident) (v : Variant)
    (ht : ascending (t.map Prod.fst) = true) :
    Table.get (Table.join_entry t k v).1 k =
      some (match Table.get t k with
        | some u => Variant.join u v
        | none => v) := by
  induction t with
  | nil => simp [Table.join_entry, Table.get]
  | cons kv rest ih =>
    obtain ⟨k1, u⟩ := kv
    simp only [List.map_cons] at ht
    rw [ascending_cons_iff] at ht
    obtain ⟨hrest, hall⟩ := ht
    rcases eq_or_ne k k1 with hk | hk
    · subst hk
      simp [Table.join_entry, Table.get, Variant.join]
    · rcases lt_or_gt_of_ne hk with hlt | hgt
      · have hnot : k ∉ rest.map Prod.fst := by
          intro hm
          exact absurd (lt_trans hlt (hall k hm)) (lt_irrefl k)
        simp [Table.join_entry, hk, hlt, Table.get,
          Table.get_eq_none_of_not_mem hnot]
      · simp [Table.join_entry, hk, not_lt_of_gt hgt, Table.get, ih hrest]

theorem Table.get_join_update_not_mem (t u : Table) (k : Ident)
    (h : k ∉ u.map Prod.fst) :
    Table.get (Table.join_update t u).1 k = Table.get t k := by
  induction u generalizing t with
  | nil => simp [Table.join_update]
  | cons kv rest ih =>
    obtain ⟨kk, v⟩ := kv
    simp only [List.map_cons, List.mem_cons] at h
    push_neg at h
    simp only [Table.join_update]
    rw [ih _ h.2, Table.get_join_entry_ne _ _ _ _ h.1]

theorem Table.get_join_update (t1 t2 : Table) (k : Ident)
    (h1 : ascending (t1.map Prod.fst) = true)
    (h2 : ascending (t2.map Prod.fst) = true) :
    Table.get (Table.join_update t1 t2).1 k =
      match Table.get t1 k, Table.get t2 k with
      | some u, some v => some (Variant.join u v)
      | some u, none => some u
      | none, some v => some v
      | none, none => none := by
  induction t2 generalizing t1 with
  | nil =>
    simp only [Table.join_update, Table.get]
    cases Table.get t1 k <;> rfl
  | cons kv rest ih =>
    obtain ⟨kk, v⟩ := kv
    simp only [List.map_cons] at h2
    rw [ascending_cons_iff] at h2
    obtain ⟨hrest, hall⟩ := h2
    have hkk : kk ∉ rest.map Prod.fst := fun hm =>
      absurd (hall kk hm) (lt_irrefl kk)
    simp only [Table.join_update]
    rcases eq_or_ne k kk with rfl | hk
    · rw [Table.get_join_update_not_mem _ _ _ hkk,
        Table.get_join_entry_self _ _ _ h1]
      simp only [Table.get, if_pos rfl]
      rw [Table.get_eq_none_of_not_mem hkk]
      cases Table.get t1 k <;> rfl
    · rw [ih _ (Table.join_entry_ascending _ _ _ h1) hrest,
        Table.get_join_entry_ne _ _ _ _ hk]
      simp only [Table.get, if_neg hk]

theorem Variant.join_update_true :
    ∀ a b : Variant, a.wf = true → b.wf = true →
      (Variant.join_update a b).2 = true → (Variant.join_update a b).1 ≠ a := by
  apply Variant.join_update.induct
    (fun a b => a.wf = true → b.wf = true →
      (Variant.join_update a b).2 = true → (Variant.join_update a b).1 ≠ a)
    (fun t1 t2 => ascending (t1.map Prod.fst) = true →
      Table.wf_values t1 = true → ascending (t2.map Prod.fst) = true →
      Table.wf_values t2 = true → (Table.join_update t1 t2).2 = true →
      ∃ k, Table.get (Table.join_update t1 t2).1 k ≠ Table.get t1 k)
    (fun t k v => ascending (t.map Prod.fst) = true →
      Table.wf_values t = true → v.wf = true →
      (Table.join_entry t k v).2 = true →
      Table.get (Table.join_entry t k v).1 k ≠ Table.get t k)
  case _ =>
    intro a b s c _ _ _ h
    simp only [Variant.join_update, RSet.join_update] at h ⊢
    simp only [decide_eq_true_eq] at h
    intro heq
    rw [Variant.set.injEq] at heq
    rw [heq] at h
    exact absurd h (lt_irrefl _)
  case _ =>
    intro a b t c _ ih ha hb h
    simp only [Variant.wf, Bool.and_eq_true] at ha hb
    simp only [Variant.join_update] at h ⊢
    obtain ⟨k, hk⟩ := ih ha.1 ha.2 hb.1 hb.2 h
    intro heq
    rw [Variant.table.injEq] at heq
    rw [heq] at hk
    exact hk rfl
  case _ => intro b _ _ h; simp [Variant.join_update] at h
  case _ => intro a b hne _ _ _; simp [Variant.join_update, hne]
  case _ => intro b _ _ h; simp [Variant.join_update] at h
  case _ => intro a b hne _ _ _; simp [Variant.join_update, hne]
  case _ => intro b _ _ h; simp [Variant.join_update] at h
  case _ => intro a b hne _ _ _; simp [Variant.join_update, hne]
  case _ => intro a b hf _ _ h; simp [Variant.join_update, hf] at h
  case _ => intro a b hne _ _ _; simp [Variant.join_update, hne]
  case _ => intro b _ _ h; simp [Variant.join_update] at h
  case _ => intro a b hne _ _ _; simp [Variant.join_update, hne]
  case _ => intro a b x _ _ h; simp [Variant.join_update] at h
  case _ =>
    intro x p q hx ha hb h
    cases x
    case conflict a b => exact (hx a b rfl).elim
    all_goals simp [Variant.join_update]
  case _ =>
    intro a e _ _ _ h
    cases a <;> simp [Variant.join_update] at h
  case _ =>
    intro e b hbc hbi ha hb h
    cases b
    case conflict p q => exact (hbc p q rfl).elim
    case invalid e2 => exact (hbi e2 rfl).elim
    all_goals simp [Variant.join_update]
  case _ =>
    intro a b hset htab hstr hdate hinst hfloat hint hac hbc hbi hai _ _ _
    cases a <;> cases b <;>
      first
        | exact (hac _ _ rfl).elim
        | exact (hbc _ _ rfl).elim
        | exact (hbi _ rfl).elim
        | exact (hai _ rfl).elim
        | exact (hset _ _ rfl rfl).elim
        | exact (htab _ _ rfl rfl).elim
        | exact (hstr _ _ rfl rfl).elim
        | exact (hdate _ _ rfl rfl).elim
        | exact (hinst _ _ rfl rfl).elim
        | exact (hfloat _ _ rfl rfl).elim
        | exact (hint _ _ rfl rfl).elim
        | simp [Variant.join_update]
  case _ =>
    intro a _ _ _ _ h
    simp [Table.join_update] at h
  case _ =>
    intro a k v rest t c he t1 c1 hu ih3 ih2 h1 h2 h3 h4 h
    simp only [List.map_cons] at h3
    rw [ascending_cons_iff] at h3
    obtain ⟨hrest, hall⟩ := h3
    have hknotin : k ∉ rest.map Prod.fst := fun hm =>
      absurd (hall k hm) (lt_irrefl k)
    simp only [Table.wf_values, Bool.and_eq_true] at h4
    simp only [Table.join_update, he, hu] at h ⊢
    by_cases hc : c = true
    · refine ⟨k, ?_⟩
      have hg := Table.get_join_update_not_mem t rest k hknotin
      rw [hu] at hg
      rw [hg]
      have hne := ih3 h1 h2 h4.1 (by rw [he]; exact hc)
      rw [he] at hne
      exact hne
    · have hcf : c = false := by simpa using hc
      have hc1 : c1 = true := by
        rw [hcf] at h
        simpa using h
      have ht : t = a := by
        have := Table.join_entry_false a k v (by rw [he]; exact hcf)
        rw [he] at this
        exact this
      subst ht
      obtain ⟨kk, hkk⟩ := ih2 h1 h2 hrest h4.2 (by rw [hu]; exact hc1)
      rw [hu] at hkk
      exact ⟨kk, hkk⟩
  case _ =>
    intro k v _ _ _ _
    simp [Table.join_entry, Table.get]
  case _ =>
    intro u a k v w c hju ih h1 h2 hv h
    simp only [Table.wf_values, Bool.and_eq_true] at h2
    simp only [Table.join_entry, if_true, hju] at h ⊢
    have hwu : w ≠ u := by
      have := ih h2.1 hv (by rw [hju]; exact h)
      rw [hju] at this
      exact this
    simp only [Table.get, if_pos rfl]
    intro heq
    exact hwu (Option.some.injEq w u ▸ heq)
  case _ =>
    intro k1 u a k v hne hlt h1 h2 hv _
    simp only [List.map_cons] at h1
    rw [ascending_cons_iff] at h1
    obtain ⟨hrest, hall⟩ := h1
    have hnot : k ∉ a.map Prod.fst := fun hm =>
      absurd (lt_trans hlt (hall k hm)) (lt_irrefl k)
    simp only [Table.join_entry, if_neg hne, if_pos hlt]
    simp [Table.get, hne, Table.get_eq_none_of_not_mem hnot]
  case _ =>
    intro k1 u a k v hne hnlt t c he ih h1 h2 hv h
    simp only [List.map_cons] at h1
    rw [ascending_cons_iff] at h1
    simp only [Table.wf_values, Bool.and_eq_true] at h2
    simp only [Table.join_entry, if_neg hne, if_neg hnlt, he] at h ⊢
    simp only [Table.get, if_neg hne]
    have := ih h1.1 h2.2 hv (by rw [he]; exact h)
    rw [he] at this
    exact this

/-- C6: for well-formed tables (the canonical embedding of any
`HashMap`-backed table), the table join is the key-wise variant join over the
union of the key sets — a key in both maps to the join of the two values, a
key in one operand keeps its value, a key in neither is absent — and the
returned flag is true exactly when the joined table differs from the left
operand, i.e. when at least one entry was added or changed. -/
theorem c6_table_join (t1 t2 : Table) (h1 : Table.wf t1 = true)
    (h2 : Table.wf t2 = true) :
    (∀ k, Table.get (Table.join t1 t2) k =
      match Table.get t1 k, Table.get t2 k with
      | some u, some v => some (Variant.join u v)
      | some u, none => some u
      | none, some v => some v
      | none, none => none) ∧
    ((Table.join_update t1 t2).2 = true ↔ Table.join t1 t2 ≠ t1) := by
  simp only [Table.wf, Bool.and_eq_true] at h1 h2
  refine ⟨fun k => Table.get_join_update t1 t2 k h1.1 h2.1, ?_, ?_⟩
  · intro hflag
    have hwf1 : (Variant.table t1).wf = true := by
      simp [Variant.wf, h1.1, h1.2]
    have hwf2 : (Variant.table t2).wf = true := by
      simp [Variant.wf, h2.1, h2.2]
    have := Variant.join_update_true (.table t1) (.table t2) hwf1 hwf2
      (by simp [Variant.join_update, hflag])
    simp only [Variant.join_update, ne_eq, Variant.table.injEq] at this
    exact this
  · intro hne
    by_contra hflag
    simp only [Bool.not_eq_true] at hflag
    have hres := Variant.join_update_false (.table t1) (.table t2)
      (by simp [Variant.join_update, hflag])
    simp only [Variant.join_update, Variant.table.injEq] at hres
    exact hne hres

/-- C6 witness: the join characterization at the concrete well-formed tables
`{a: Int 2}` and `{a: Int 5, b: Int 3}`. -/
theorem c6_table_join_witness :
    (∀ k, Table.get (Table.join [(Ident.nonIntern "a", Variant.int 2)]
        [(Ident.nonIntern "a", Variant.int 5), (Ident.intern "b", Variant.int 3)]) k =
      match Table.get [(Ident.nonIntern "a", Variant.int 2)] k,
        Table.get [(Ident.nonIntern "a", Variant.int 5), (Ident.intern "b", Variant.int 3)] k with
      | some u, some v => some (Variant.join u v)
      | some u, none => some u
      | none, some v => some v
      | none, none => none) ∧
    ((Table.join_update [(Ident.nonIntern "a", Variant.int 2)]
        [(Ident.nonIntern "a", Variant.int 5), (Ident.intern "b", Variant.int 3)]).2 = true ↔
      Table.join [(Ident.nonIntern "a", Variant.int 2)]
        [(Ident.nonIntern "a", Variant.int 5), (Ident.intern "b", Variant.int 3)] ≠
        [(Ident.nonIntern "a", Variant.int 2)]) :=
  c6_table_join _ _
    (by simp [Table.wf, ascending, Table.wf_values, Variant.wf])
    (by simp [Table.wf, ascending, Table.wf_values, Variant.wf]; decide)

theorem RSet.insert_elem_mem (s : List Ident) (x y : Ident) :
    y ∈ RSet.insert_elem s x ↔ y = x ∨ y ∈ s := by
  induction s with
  | nil => simp [RSet.insert_elem]
  | cons z t ih =>
    rcases eq_or_ne x z with hx | hx
    · subst hx
      simp [RSet.insert_elem]
    · rcases lt_or_gt_of_ne hx with hlt | hgt
      · simp [RSet.insert_elem, hx, hlt]
      · simp [RSet.insert_elem, hx, not_lt_of_gt hgt, ih]
        tauto

theorem RSet.insert_elem_ascending (s : List Ident) (x : Ident)
    (hs : ascending s = true) : ascending (RSet.insert_elem s x) = true := by
  induction s with
  | nil => simp [RSet.insert_elem, ascending]
  | cons z t ih =>
    rw [ascending_cons_iff] at hs
    obtain ⟨ht, hall⟩ := hs
    rcases eq_or_ne x z with hx | hx
    · subst hx
      simp only [RSet.insert_elem, if_true]
      rw [ascending_cons_iff]
      exact ⟨ht, hall⟩
    · rcases lt_or_gt_of_ne hx with hlt | hgt
      · simp only [RSet.insert_elem, if_neg hx, if_pos hlt]
        rw [ascending_cons_iff, ascending_cons_iff]
        refine ⟨⟨ht, hall⟩, ?_⟩
        intro y hy
        rcases List.mem_cons.mp hy with rfl | hy
        · exact hlt
        · exact lt_trans hlt (hall y hy)
      · simp only [RSet.insert_elem, if_neg hx, if_neg (not_lt_of_gt hgt)]
        rw [ascending_cons_iff]
        refine ⟨ih ht, ?_⟩
        intro y hy
        rcases (RSet.insert_elem_mem t x y).mp hy with rfl | hy
        · exact hgt
        · exact hall y hy

theorem RSet.extend_mem (a b : List Ident) (y : Ident) :
    y ∈ RSet.extend a b ↔ y ∈ a ∨ y ∈ b := by
  induction b generalizing a with
  | nil => simp [RSet.extend]
  | cons x rest ih =>
    simp only [RSet.extend]
    rw [ih, RSet.insert_elem_mem]
    simp only [List.mem_cons]
    tauto

theorem RSet.extend_ascending (a b : List Ident)
    (ha : ascending a = true) : ascending (RSet.extend a b) = true := by
  induction b generalizing a with
  | nil => exact ha
  | cons x rest ih =>
    exact ih _ (RSet.insert_elem_ascending a x ha)

theorem ascending_ext (l1 l2 : List Ident) (h1 : ascending l1 = true)
    (h2 : ascending l2 = true) (h : ∀ y, y ∈ l1 ↔ y ∈ l2) : l1 = l2 := by
  induction l1 generalizing l2 with
  | nil =>
    cases l2 with
    | nil => rfl
    | cons z t2 => exact absurd ((h z).mpr (List.mem_cons_self z t2)) (by simp)
  | cons x t1 ih =>
    cases l2 with
    | nil => exact absurd ((h x).mp (List.mem_cons_self x t1)) (by simp)
    | cons z t2 =>
      rw [ascending_cons_iff] at h1 h2
      obtain ⟨ht1, hall1⟩ := h1
      obtain ⟨ht2, hall2⟩ := h2
      have hxz : x = z := by
        rcases List.mem_cons.mp ((h x).mp (List.mem_cons_self x t1)) with
          hx | hx
        · exact hx
        · rcases List.mem_cons.mp ((h z).mpr (List.mem_cons_self z t2)) with
            hz | hz
          · exact hz.symm
          · exact absurd (lt_trans (hall1 z hz) (hall2 x hx)) (lt_irrefl x)
      subst hxz
      have htails : ∀ y, y ∈ t1 ↔ y ∈ t2 := by
        intro y
        constructor
        · intro hy
          rcases List.mem_cons.mp ((h y).mp (List.mem_cons_of_mem x hy)) with
            rfl | hz
          · exact absurd (hall1 y hy) (lt_irrefl y)
          · exact hz
        · intro hy
          rcases List.mem_cons.mp ((h y).mpr (List.mem_cons_of_mem x hy)) with
            rfl | hz
          · exact absurd (hall2 y hy) (lt_irrefl y)
          · exact hz
      rw [ih t2 ht1 ht2 htails]

theorem Table.erase_values_keys (ts : List (Ident × Variant)) :
    (Table.erase_values ts).map Prod.fst = ts.map Prod.fst := by
  induction ts with
  | nil => rfl
  | cons kv rest ih =>
    obtain ⟨k, v⟩ := kv
    simp [Table.erase_values, ih]

theorem Table.get_erase_values (ts : List (Ident × Variant)) (k : Ident) :
    Table.get (Table.erase_values ts) k =
      (Table.get ts k).map Variant.erase_tops := by
  induction ts with
  | nil => rfl
  | cons kv rest ih =>
    obtain ⟨k1, v⟩ := kv
    by_cases hk : k = k1 <;> simp [Table.erase_values, Table.get, hk, ih]

theorem Table.ext_ascending (t1 t2 : Table)
    (h1 : ascending (t1.map Prod.fst) = true)
    (h2 : ascending (t2.map Prod.fst) = true)
    (h : ∀ k, Table.get t1 k = Table.get t2 k) : t1 = t2 := by
  induction t1 generalizing t2 with
  | nil =>
    cases t2 with
    | nil => rfl
    | cons kv t =>
      obtain ⟨k, v⟩ := kv
      have := h k
      simp [Table.get] at this
  | cons kv t ih =>
    obtain ⟨k, v⟩ := kv
    cases t2 with
    | nil =>
      have := h k
      simp [Table.get] at this
    | cons kv2 t2tl =>
      obtain ⟨k2, v2⟩ := kv2
      simp only [List.map_cons] at h1 h2
      rw [ascending_cons_iff] at h1 h2
      obtain ⟨ht1, hall1⟩ := h1
      obtain ⟨ht2, hall2⟩ := h2
      have hnot1 : Table.get t k = none :=
        Table.get_eq_none_of_not_mem fun hm =>
          absurd (hall1 k hm) (lt_irrefl k)
      have hnot2 : Table.get t2tl k2 = none :=
        Table.get_eq_none_of_not_mem fun hm =>
          absurd (hall2 k2 hm) (lt_irrefl k2)
      have hkk : k = k2 := by
        by_contra hne
        have hk1 := h k
        have hk2 := h k2
        simp only [Table.get, if_pos rfl] at hk1 hk2
        rw [if_neg hne] at hk1
        rw [if_neg (Ne.symm hne)] at hk2
        have hm1 : k ∈ t2tl.map Prod.fst := by
          by_contra hnm
          rw [Table.get_eq_none_of_not_mem hnm] at hk1
          exact Option.noConfusion hk1
        have hm2 : k2 ∈ t.map Prod.fst := by
          by_contra hnm
          rw [Table.get_eq_none_of_not_mem hnm] at hk2
          exact Option.noConfusion hk2.symm
        exact absurd (lt_trans (hall1 k2 hm2) (hall2 k hm1)) (lt_irrefl k)
      subst hkk
      have hv : v = v2 := by
        have := h k
        simp only [Table.get, if_pos rfl] at this
        exact Option.some.inj this
      subst hv
      congr 1
      refine ih t2tl ht1 ht2 ?_
      intro k1
      rcases eq_or_ne k1 k with rfl | hne
      · rw [hnot1, hnot2]
      · have := h k1
        simp only [Table.get, if_neg hne] at this
        exact this

theorem Table.get_sizeOf {t : Table} {k : Ident} {v : Variant}
    (h : Table.get t k = some v) : sizeOf v < sizeOf t := by
  induction t with
  | nil => simp [Table.get] at h
  | cons kv rest ih =>
    obtain ⟨k1, u⟩ := kv
    by_cases hk : k = k1
    · simp only [Table.get, if_pos hk] at h
      obtain rfl := Option.some.inj h
      simp
      omega
    · simp only [Table.get, if_neg hk] at h
      have := ih h
      simp
      omega

theorem Table.get_wf {t : Table} (hw : Table.wf_values t = true) {k : Ident}
    {v : Variant} (h : Table.get t k = some v) : v.wf = true := by
  induction t with
  | nil => simp [Table.get] at h
  | cons kv rest ih =>
    obtain ⟨k1, u⟩ := kv
    simp only [Table.wf_values, Bool.and_eq_true] at hw
    by_cases hk : k = k1
    · simp only [Table.get, if_pos hk] at h
      obtain rfl := Option.some.inj h
      exact hw.1
    · simp only [Table.get, if_neg hk] at h
      exact ih hw.2 h

theorem Table.get_nan_free {t : Table}
    (hw : Table.nan_free_values t = true) {k : Ident} {v : Variant}
    (h : Table.get t k = some v) : v.nan_free = true := by
  induction t with
  | nil => simp [Table.get] at h
  | cons kv rest ih =>
    obtain ⟨k1, u⟩ := kv
    simp only [Table.nan_free_values, Bool.and_eq_true] at hw
    by_cases hk : k = k1
    · simp only [Table.get, if_pos hk] at h
      obtain rfl := Option.some.inj h
      exact hw.1
    · simp only [Table.get, if_neg hk] at h
      exact ih hw.2 h

theorem Table.join_update_ascending (t1 t2 : Table)
    (h1 : ascending (t1.map Prod.fst) = true) :
    ascending ((Table.join_update t1 t2).1.map Prod.fst) = true := by
  induction t2 generalizing t1 with
  | nil => simpa [Table.join_update]
  | cons kv rest ih =>
    obtain ⟨k, v⟩ := kv
    simp only [Table.join_update]
    exact ih _ (Table.join_entry_ascending t1 k v h1)

theorem Variant.join_conflict_left (p q x : Variant) :
    Variant.join (.conflict p q) x = .conflict p q := by
  simp [Variant.join, Variant.join_update]

theorem Variant.join_invalid_right (x : Variant) (e : RError) :
    Variant.join x (.invalid e) = x := by
  cases x <;> simp [Variant.join, Variant.join_update]

theorem Variant.join_invalid_left (x : Variant) (e : RError)
    (hi : x.is_invalid = false) :
    Variant.join (.invalid e) x = x := by
  cases x <;> simp_all [Variant.join, Variant.join_update, Variant.is_invalid]

theorem Variant.join_conflict_right (x p q : Variant)
    (hc : x.is_conflict = false) :
    Variant.join x (.conflict p q) = .conflict p q := by
  cases x <;> simp_all [Variant.join, Variant.join_update, Variant.is_conflict]

theorem Variant.join_conflict_right_kind (x p q : Variant) :
    (Variant.join x (.conflict p q)).is_conflict = true := by
  cases x <;> simp [Variant.join, Variant.join_update, Variant.is_conflict]

theorem Variant.erase_of_conflict (x : Variant) (h : x.is_conflict = true) :
    x.erase_tops = .conflict (.int 0) (.int 0) := by
  cases x <;> simp_all [Variant.is_conflict, Variant.erase_tops]

theorem Variant.join_not_invalid (x y : Variant)
    (hx : x.is_invalid = false) :
    (Variant.join x y).is_invalid = false := by
  cases x <;> cases y <;>
    simp_all [Variant.join, Variant.join_update, Variant.is_invalid] <;>
    split_ifs <;> simp [Variant.is_invalid]

/-- Constructor index of a variant, used to state kind-mismatch laws. -/
def Variant.kind : Variant → Nat
  | .conflict _ _ => 0
  | .str _ => 1
  | .date _ => 2
  | .instant _ => 3
  | .float _ => 4
  | .int _ => 5
  | .set _ => 6
  | .table _ => 7
  | .invalid _ => 8

theorem Variant.join_kind (b c : Variant) (hbi : b.is_invalid = false) :
    (Variant.join b c).kind = b.kind ∨
      (Variant.join b c).is_conflict = true := by
  cases b <;> cases c <;>
    first
      | (simp [Variant.is_invalid] at hbi
         done)
      | (simp only [Variant.join, Variant.join_update]
         first
           | (split_ifs <;> simp [Variant.kind, Variant.is_conflict])
           | simp [Variant.kind, Variant.is_conflict])

theorem Variant.join_mismatch (x y : Variant) (hk : x.kind ≠ y.kind)
    (hxc : x.is_conflict = false) (hxi : x.is_invalid = false)
    (hyc : y.is_conflict = false) (hyi : y.is_invalid = false) :
    Variant.join x y = .conflict x y := by
  cases x <;> cases y <;>
    simp_all [Variant.join, Variant.join_update, Variant.kind,
      Variant.is_conflict, Variant.is_invalid]

theorem Variant.join_update_wf :
    ∀ a b : Variant, a.wf = true → b.wf = true →
      ((Variant.join_update a b).1).wf = true := by
  apply Variant.join_update.induct
    (fun a b => a.wf = true → b.wf = true →
      ((Variant.join_update a b).1).wf = true)
    (fun t1 t2 => Table.wf_values t1 = true → Table.wf_values t2 = true →
      ascending (t1.map Prod.fst) = true →
      Table.wf_values (Table.join_update t1 t2).1 = true)
    (fun t k v => Table.wf_values t = true → v.wf = true →
      Table.wf_values (Table.join_entry t k v).1 = true)
  case _ =>
    intro a b s c _ ha hb
    simp only [Variant.wf] at ha ⊢
    simp only [Variant.join_update, RSet.join_update]
    exact RSet.extend_ascending a b ha
  case _ =>
    intro a b t c _ ih ha hb
    simp only [Variant.wf, Bool.and_eq_true] at ha hb
    simp only [Variant.join_update]
    simp only [Variant.wf, Bool.and_eq_true]
    exact ⟨Table.join_update_ascending a b ha.1, ih ha.2 hb.2 ha.1⟩
  case _ => intro b _ _; simp [Variant.join_update, Variant.wf]
  case _ => intro a b hne _ _; simp [Variant.join_update, hne, Variant.wf]
  case _ => intro b _ _; simp [Variant.join_update, Variant.wf]
  case _ => intro a b hne _ _; simp [Variant.join_update, hne, Variant.wf]
  case _ => intro b _ _; simp [Variant.join_update, Variant.wf]
  case _ => intro a b hne _ _; simp [Variant.join_update, hne, Variant.wf]
  case _ => intro a b hf _ _; simp [Variant.join_update, hf, Variant.wf]
  case _ => intro a b hne _ _; simp [Variant.join_update, hne, Variant.wf]
  case _ => intro b _ _; simp [Variant.join_update, Variant.wf]
  case _ => intro a b hne _ _; simp [Variant.join_update, hne, Variant.wf]
  case _ => intro a b x ha hb; simpa [Variant.join_update] using ha
  case _ =>
    intro x p q hx ha hb
    cases x
    case conflict a b => exact (hx a b rfl).elim
    all_goals simpa [Variant.join_update] using hb
  case _ =>
    intro a e _ ha _
    cases a <;> simpa [Variant.join_update] using ha
  case _ =>
    intro e b hbc hbi _ hb
    cases b
    case conflict p q => exact (hbc p q rfl).elim
    case invalid e2 => exact (hbi e2 rfl).elim
    all_goals simpa [Variant.join_update] using hb
  case _ =>
    intro a b hset htab hstr hdate hinst hfloat hint hac hbc hbi hai ha hb
    cases a <;> cases b <;>
      first
        | exact (hac _ _ rfl).elim
        | exact (hbc _ _ rfl).elim
        | exact (hbi _ rfl).elim
        | exact (hai _ rfl).elim
        | exact (hset _ _ rfl rfl).elim
        | exact (htab _ _ rfl rfl).elim
        | exact (hstr _ _ rfl rfl).elim
        | exact (hdate _ _ rfl rfl).elim
        | exact (hinst _ _ rfl rfl).elim
        | exact (hfloat _ _ rfl rfl).elim
        | exact (hint _ _ rfl rfl).elim
        | simp_all [Variant.join_update, Variant.wf]
  case _ =>
    intro a h1 _ _
    simpa [Table.join_update] using h1
  case _ =>
    intro a k v rest t c he t1 c1 hu ih3 ih2 h1 h2 hasc
    simp only [Table.wf_values, Bool.and_eq_true] at h2
    simp only [Table.join_update, he, hu]
    have hwt : Table.wf_values t = true := by
      have := ih3 h1 h2.1
      rw [he] at this
      exact this
    have hta : ascending (t.map Prod.fst) = true := by
      have := Table.join_entry_ascending a k v hasc
      rw [he] at this
      exact this
    have := ih2 hwt h2.2 hta
    rw [hu] at this
    exact this
  case _ =>
    intro k v h1 hv
    simp [Table.join_entry, Table.wf_values, hv]
  case _ =>
    intro u a k v w c hju ih h1 hv
    simp only [Table.wf_values, Bool.and_eq_true] at h1
    simp only [Table.join_entry, if_true, hju, Table.wf_values,
      Bool.and_eq_true]
    have hw : w.wf = true := by
      have := ih h1.1 hv
      rw [hju] at this
      exact this
    exact ⟨hw, h1.2⟩
  case _ =>
    intro k1 u a k v hne hlt h1 hv
    simp only [Table.wf_values, Bool.and_eq_true] at h1
    simp [Table.join_entry, hne, hlt, Table.wf_values, hv, h1.1, h1.2]
  case _ =>
    intro k1 u a k v hne hnlt t c he ih h1 hv
    simp only [Table.wf_values, Bool.and_eq_true] at h1
    simp only [Table.join_entry, if_neg hne, if_neg hnlt, he,
      Table.wf_values, Bool.and_eq_true]
    have := ih h1.2 hv
    rw [he] at this
    exact ⟨h1.1, this⟩

theorem Variant.join_wf (a b : Variant) (ha : a.wf = true)
    (hb : b.wf = true) : (Variant.join a b).wf = true :=
  Variant.join_update_wf a b ha hb

theorem RSet.extend_self (a : List Ident) (ha : ascending a = true) :
    RSet.extend a a = a := by
  refine ascending_ext _ _ (RSet.extend_ascending a a ha) ha ?_
  intro y
  rw [RSet.extend_mem]
  tauto

theorem RSet.extend_comm (a b : List Ident) (ha : ascending a = true)
    (hb : ascending b = true) : RSet.extend a b = RSet.extend b a := by
  refine ascending_ext _ _ (RSet.extend_ascending a b ha)
    (RSet.extend_ascending b a hb) ?_
  intro y
  rw [RSet.extend_mem, RSet.extend_mem]
  tauto

theorem RSet.extend_assoc (a b c : List Ident) (ha : ascending a = true) :
    RSet.extend (RSet.extend a b) c = RSet.extend a (RSet.extend b c) := by
  refine ascending_ext _ _
    (RSet.extend_ascending _ c (RSet.extend_ascending a b ha))
    (RSet.extend_ascending a _ ha) ?_
  intro y
  simp only [RSet.extend_mem]
  tauto

theorem Table.get_of_mem {t : Table} (ht : ascending (t.map Prod.fst) = true)
    {k : Ident} {v : Variant} (h : (k, v) ∈ t) : Table.get t k = some v := by
  induction t with
  | nil => simp at h
  | cons kv rest ih =>
    obtain ⟨k1, u⟩ := kv
    simp only [List.map_cons] at ht
    rw [ascending_cons_iff] at ht
    rcases List.mem_cons.mp h with heq | hmem
    · rw [Prod.ext_iff] at heq
      obtain ⟨h1, h2⟩ := heq
      simp only at h1 h2
      subst h1
      subst h2
      simp [Table.get]
    · have hk : k ≠ k1 := by
        intro heq2
        subst heq2
        have : k ∈ rest.map Prod.fst :=
          List.mem_map.mpr ⟨(k, v), hmem, rfl⟩
        exact absurd (ht.2 k this) (lt_irrefl k)
      simp [Table.get, hk, ih ht.1 hmem]

theorem Variant.join_update_diag :
    ∀ a b : Variant, a = b → a.wf = true → a.nan_free = true →
      (Variant.join_update a b).1 = a := by
  apply Variant.join_update.induct
    (fun a b => a = b → a.wf = true → a.nan_free = true →
      (Variant.join_update a b).1 = a)
    (fun t1 t2 => (∀ kv ∈ t2, Table.get t1 kv.1 = some kv.2) →
      ascending (t1.map Prod.fst) = true → Table.wf_values t1 = true →
      Table.nan_free_values t1 = true → (Table.join_update t1 t2).1 = t1)
    (fun t k v => Table.get t k = some v →
      ascending (t.map Prod.fst) = true →
      Table.wf_values t = true → Table.nan_free_values t = true →
      (Table.join_entry t k v).1 = t)
  case _ =>
    intro a b s c _ heq ha _
    obtain rfl := Variant.set.inj heq
    simp only [Variant.wf] at ha
    simp [Variant.join_update, RSet.join_update, RSet.extend_self a ha]
  case _ =>
    intro a b t c _ ih heq ha hnf
    obtain rfl := Variant.table.inj heq
    simp only [Variant.wf, Bool.and_eq_true] at ha
    simp only [Variant.nan_free] at hnf
    simp only [Variant.join_update]
    rw [ih (fun kv hkv => Table.get_of_mem ha.1 hkv) ha.1 ha.2 hnf]
  case _ => intro b _ _ _; simp [Variant.join_update]
  case _ =>
    intro a b hne heq _ _
    exact absurd (Variant.str.inj heq) hne
  case _ => intro b _ _ _; simp [Variant.join_update]
  case _ =>
    intro a b hne heq _ _
    exact absurd (Variant.date.inj heq) hne
  case _ => intro b _ _ _; simp [Variant.join_update]
  case _ =>
    intro a b hne heq _ _
    exact absurd (Variant.instant.inj heq) hne
  case _ => intro a b hf _ _ _; simp [Variant.join_update, hf]
  case _ =>
    intro a b hne heq hwf hnf
    obtain rfl := Variant.float.inj heq
    cases a with
    | nan => simp [Variant.nan_free] at hnf
    | num q => exact absurd (RFloat.feq_num q) hne
  case _ => intro b _ _ _; simp [Variant.join_update]
  case _ =>
    intro a b hne heq _ _
    exact absurd (Variant.int.inj heq) hne
  case _ => intro a b x _ _ _; simp [Variant.join_update]
  case _ =>
    intro x p q hx heq _ _
    exact (hx p q heq).elim
  case _ =>
    intro a e _ heq _ _
    subst heq
    simp [Variant.join_update]
  case _ =>
    intro e b hbc hbi heq _ _
    exact (hbi e heq.symm).elim
  case _ =>
    intro a b hset htab hstr hdate hinst hfloat hint hac hbc hbi hai heq
    intro hwf hnf
    subst heq
    cases a
    case conflict p q => exact (hac p q rfl).elim
    case str s => exact (hstr s s rfl rfl).elim
    case date d => exact (hdate d d rfl rfl).elim
    case instant t => exact (hinst t t rfl rfl).elim
    case float x => exact (hfloat x x rfl rfl).elim
    case int n => exact (hint n n rfl rfl).elim
    case set xs => exact (hset xs xs rfl rfl).elim
    case table ts => exact (htab ts ts rfl rfl).elim
    case invalid e => exact (hbi e rfl).elim
  case _ => intro a _ _ _ _; simp [Table.join_update]
  case _ =>
    intro a k v rest t c he t1 c1 hu ih3 ih2 h hasc hwv hnf
    simp only [Table.join_update, he, hu]
    have ht : t = a := by
      have := ih3 (h (k, v) (List.mem_cons_self _ _)) hasc hwv hnf
      rw [he] at this
      exact this
    subst ht
    have := ih2 (fun kv hkv => h kv (List.mem_cons_of_mem _ hkv)) hasc hwv hnf
    rw [hu] at this
    exact this
  case _ =>
    intro k v h _ _ _
    simp [Table.get] at h
  case _ =>
    intro u a k v w c hju ih h hasc hwv hnf
    simp only [Table.get, if_true] at h
    obtain rfl := Option.some.inj h
    simp only [Table.wf_values, Bool.and_eq_true] at hwv
    simp only [Table.nan_free_values, Bool.and_eq_true] at hnf
    simp only [Table.join_entry, if_true, hju]
    have hw : w = u := by
      have := ih rfl hwv.1 hnf.1
      rw [hju] at this
      exact this
    simp [hw]
  case _ =>
    intro k1 u a k v hne hlt h hasc _ _
    simp only [Table.get, if_neg hne] at h
    simp only [List.map_cons] at hasc
    rw [ascending_cons_iff] at hasc
    have hmem : k ∈ a.map Prod.fst := by
      by_contra hnm
      rw [Table.get_eq_none_of_not_mem hnm] at h
      exact Option.noConfusion h
    exact absurd (lt_trans hlt (hasc.2 k hmem)) (lt_irrefl k)
  case _ =>
    intro k1 u a k v hne hnlt t c he ih h hasc hwv hnf
    simp only [Table.get, if_neg hne] at h
    simp only [List.map_cons] at hasc
    rw [ascending_cons_iff] at hasc
    simp only [Table.wf_values, Bool.and_eq_true] at hwv
    simp only [Table.nan_free_values, Bool.and_eq_true] at hnf
    simp only [Table.join_entry, if_neg hne, if_neg hnlt, he]
    have := ih h hasc.1 hwv.2 hnf.2
    rw [he] at this
    simp only at this
    rw [this]

theorem Variant.join_comm_erase :
    ∀ a b : Variant, a.wf = true → b.wf = true →
      (Variant.join a b).erase_tops = (Variant.join b a).erase_tops := by
  suffices main : ∀ n, ∀ a b : Variant, sizeOf a + sizeOf b ≤ n →
      a.wf = true → b.wf = true →
      (Variant.join a b).erase_tops = (Variant.join b a).erase_tops by
    exact fun a b => main (sizeOf a + sizeOf b) a b le_rfl
  intro n
  induction n using Nat.strong_induction_on with
  | _ n ih =>
    intro a b hsz ha hb
    cases a <;> cases b <;>
      first
        | (simp [Variant.join, Variant.join_update, Variant.erase_tops]
           done)
        | (clear ih hsz ha hb
           simp only [Variant.join, Variant.join_update]
           split_ifs <;> simp_all [Variant.erase_tops]
           done)
        | skip
    case float.float x y =>
      by_cases hf : RFloat.feq x y = true
      · obtain rfl := RFloat.eq_of_feq hf
        rfl
      · have hf2 : ¬(RFloat.feq y x = true) := by
          rw [RFloat.feq_comm y x]
          exact hf
        simp only [Variant.join, Variant.join_update]
        rw [if_neg hf, if_neg hf2]
        simp [Variant.erase_tops]
    case set.set al bl =>
      simp only [Variant.wf] at ha hb
      simp only [Variant.join, Variant.join_update, RSet.join_update]
      rw [RSet.extend_comm al bl ha hb]
    case table.table t1 t2 =>
      simp only [Variant.wf, Bool.and_eq_true] at ha hb
      simp only [Variant.join, Variant.join_update, Variant.erase_tops]
      rw [Variant.table.injEq]
      refine Table.ext_ascending _ _ ?_ ?_ ?_
      · rw [Table.erase_values_keys]
        exact Table.join_update_ascending t1 t2 ha.1
      · rw [Table.erase_values_keys]
        exact Table.join_update_ascending t2 t1 hb.1
      · intro k
        rw [Table.get_erase_values, Table.get_erase_values,
          Table.get_join_update t1 t2 k ha.1 hb.1,
          Table.get_join_update t2 t1 k hb.1 ha.1]
        cases hg1 : Table.get t1 k with
        | none =>
          cases hg2 : Table.get t2 k with
          | none => rfl
          | some v => rfl
        | some u =>
          cases hg2 : Table.get t2 k with
          | none => rfl
          | some v =>
            show some ((u.join v).erase_tops) = some ((v.join u).erase_tops)
            rw [Option.some.injEq]
            have hszu := Table.get_sizeOf hg1
            have hszv := Table.get_sizeOf hg2
            have hm : sizeOf u + sizeOf v < n := by
              have h1 : sizeOf (Variant.table t1) = 1 + sizeOf t1 := by
                simp
              have h2 : sizeOf (Variant.table t2) = 1 + sizeOf t2 := by
                simp
              omega
            exact ih (sizeOf u + sizeOf v) hm u v le_rfl
              (Table.get_wf ha.2 hg1) (Table.get_wf hb.2 hg2)

theorem Variant.is_conflict_shape {x : Variant} (h : x.is_conflict = true) :
    ∃ p q, x = .conflict p q := by
  cases x <;> simp_all [Variant.is_conflict]

theorem Variant.is_invalid_shape {x : Variant} (h : x.is_invalid = true) :
    ∃ e, x = .invalid e := by
  cases x <;> simp_all [Variant.is_invalid]

theorem Variant.join_invalid_invalid (e1 e2 : RError) :
    Variant.join (.invalid e1) (.invalid e2) = .invalid e1 := by
  simp [Variant.join, Variant.join_update]

theorem Variant.kind_shape_str {x : Variant} (h : x.kind = 1) :
    ∃ s, x = .str s := by
  cases x <;> simp_all [Variant.kind]

theorem Variant.kind_shape_date {x : Variant} (h : x.kind = 2) :
    ∃ d, x = .date d := by
  cases x <;> simp_all [Variant.kind]

theorem Variant.kind_shape_instant {x : Variant} (h : x.kind = 3) :
    ∃ t, x = .instant t := by
  cases x <;> simp_all [Variant.kind]

theorem Variant.kind_shape_float {x : Variant} (h : x.kind = 4) :
    ∃ r, x = .float r := by
  cases x <;> simp_all [Variant.kind]

theorem Variant.kind_shape_int {x : Variant} (h : x.kind = 5) :
    ∃ n, x = .int n := by
  cases x <;> simp_all [Variant.kind]

theorem Variant.kind_shape_set {x : Variant} (h : x.kind = 6) :
    ∃ xs, x = .set xs := by
  cases x <;> simp_all [Variant.kind]

theorem Variant.kind_shape_table {x : Variant} (h : x.kind = 7) :
    ∃ ts, x = .table ts := by
  cases x <;> simp_all [Variant.kind]

theorem Variant.not_conflict_kind {x : Variant} (h : x.is_conflict = false) :
    x.kind ≠ 0 := by
  cases x <;> simp_all [Variant.kind, Variant.is_conflict]

theorem Variant.not_conflict_of_kind {x : Variant} (h : x.kind ≠ 0) :
    x.is_conflict = false := by
  cases x <;> simp_all [Variant.kind, Variant.is_conflict]

theorem Variant.join_assoc_erase :
    ∀ a b c : Variant, a.wf = true → b.wf = true → c.wf = true →
      (Variant.join (Variant.join a b) c).erase_tops =
        (Variant.join a (Variant.join b c)).erase_tops := by
  suffices main : ∀ n, ∀ a b c : Variant,
      sizeOf a + sizeOf b + sizeOf c ≤ n → a.wf = true → b.wf = true →
      c.wf = true →
      (Variant.join (Variant.join a b) c).erase_tops =
        (Variant.join a (Variant.join b c)).erase_tops by
    exact fun a b c => main (sizeOf a + sizeOf b + sizeOf c) a b c le_rfl
  intro n
  induction n using Nat.strong_induction_on with
  | _ n ih =>
  intro a b c hsz ha hb hc
  by_cases hac : a.is_conflict = true
  · obtain ⟨p, q, rfl⟩ := Variant.is_conflict_shape hac
    rw [Variant.join_conflict_left, Variant.join_conflict_left,
      Variant.join_conflict_left]
  · rw [Bool.not_eq_true] at hac
    by_cases hbc : b.is_conflict = true
    · obtain ⟨p, q, rfl⟩ := Variant.is_conflict_shape hbc
      rw [Variant.join_conflict_right a p q hac, Variant.join_conflict_left,
        Variant.join_conflict_right a p q hac]
    · rw [Bool.not_eq_true] at hbc
      by_cases hcc : c.is_conflict = true
      · obtain ⟨p, q, rfl⟩ := Variant.is_conflict_shape hcc
        rw [Variant.join_conflict_right b p q hbc,
          Variant.join_conflict_right a p q hac,
          Variant.erase_of_conflict _
            (Variant.join_conflict_right_kind (Variant.join a b) p q),
          Variant.erase_of_conflict _ (by simp [Variant.is_conflict])]
      · rw [Bool.not_eq_true] at hcc
        by_cases hai : a.is_invalid = true
        · obtain ⟨e, rfl⟩ := Variant.is_invalid_shape hai
          by_cases hbi : b.is_invalid = true
          · obtain ⟨e2, rfl⟩ := Variant.is_invalid_shape hbi
            rw [Variant.join_invalid_invalid]
            by_cases hci : c.is_invalid = true
            · obtain ⟨e3, rfl⟩ := Variant.is_invalid_shape hci
              rw [Variant.join_invalid_invalid, Variant.join_invalid_invalid,
                Variant.join_invalid_invalid]
            · rw [Bool.not_eq_true] at hci
              rw [Variant.join_invalid_left c e2 hci]
          · rw [Bool.not_eq_true] at hbi
            rw [Variant.join_invalid_left b e hbi,
              Variant.join_invalid_left (Variant.join b c) e
                (Variant.join_not_invalid b c hbi)]
        · rw [Bool.not_eq_true] at hai
          by_cases hbi : b.is_invalid = true
          · obtain ⟨e, rfl⟩ := Variant.is_invalid_shape hbi
            rw [Variant.join_invalid_right a e]
            by_cases hci : c.is_invalid = true
            · obtain ⟨e3, rfl⟩ := Variant.is_invalid_shape hci
              rw [Variant.join_invalid_invalid, Variant.join_invalid_right a e,
                Variant.join_invalid_right a e3]
            · rw [Bool.not_eq_true] at hci
              rw [Variant.join_invalid_left c e hci]
          · rw [Bool.not_eq_true] at hbi
            by_cases hci : c.is_invalid = true
            · obtain ⟨e, rfl⟩ := Variant.is_invalid_shape hci
              rw [Variant.join_invalid_right (Variant.join a b) e,
                Variant.join_invalid_right b e]
            · rw [Bool.not_eq_true] at hci
              by_cases hkab : a.kind = b.kind
              · by_cases hkbc : b.kind = c.kind
                · cases a with
                  | conflict p q => simp [Variant.is_conflict] at hac
                  | invalid e => simp [Variant.is_invalid] at hai
                  | str x =>
                    obtain ⟨y, rfl⟩ := Variant.kind_shape_str hkab.symm
                    obtain ⟨z, rfl⟩ := Variant.kind_shape_str hkbc.symm
                    clear ih hsz ha hb hc hac hbc hcc hai hbi hci hkab hkbc
                    by_cases hxy : x = y <;> by_cases hyz : y = z <;>
                      by_cases hxz : x = z <;>
                      simp_all [Variant.join, Variant.join_update,
                        Variant.erase_tops]
                  | date x =>
                    obtain ⟨y, rfl⟩ := Variant.kind_shape_date hkab.symm
                    obtain ⟨z, rfl⟩ := Variant.kind_shape_date hkbc.symm
                    clear ih hsz ha hb hc hac hbc hcc hai hbi hci hkab hkbc
                    by_cases hxy : x = y <;> by_cases hyz : y = z <;>
                      by_cases hxz : x = z <;>
                      simp_all [Variant.join, Variant.join_update,
                        Variant.erase_tops]
                  | instant x =>
                    obtain ⟨y, rfl⟩ := Variant.kind_shape_instant hkab.symm
                    obtain ⟨z, rfl⟩ := Variant.kind_shape_instant hkbc.symm
                    clear ih hsz ha hb hc hac hbc hcc hai hbi hci hkab hkbc
                    by_cases hxy : x = y <;> by_cases hyz : y = z <;>
                      by_cases hxz : x = z <;>
                      simp_all [Variant.join, Variant.join_update,
                        Variant.erase_tops]
                  | float x =>
                    obtain ⟨y, rfl⟩ := Variant.kind_shape_float hkab.symm
                    obtain ⟨z, rfl⟩ := Variant.kind_shape_float hkbc.symm
                    clear ih hsz ha hb hc hac hbc hcc hai hbi hci hkab hkbc
                    cases x <;> cases y <;> cases z <;>
                      first
                        | (simp [Variant.join, Variant.join_update,
                             RFloat.feq, Variant.erase_tops]
                           done)
                        | (simp only [Variant.join, Variant.join_update,
                             RFloat.feq]
                           split_ifs <;>
                             simp_all [Variant.join, Variant.join_update,
                               RFloat.feq, Variant.erase_tops]
                           done)
                  | int x =>
                    obtain ⟨y, rfl⟩ := Variant.kind_shape_int hkab.symm
                    obtain ⟨z, rfl⟩ := Variant.kind_shape_int hkbc.symm
                    clear ih hsz ha hb hc hac hbc hcc hai hbi hci hkab hkbc
                    by_cases hxy : x = y <;> by_cases hyz : y = z <;>
                      by_cases hxz : x = z <;>
                      simp_all [Variant.join, Variant.join_update,
                        Variant.erase_tops]
                  | set A =>
                    obtain ⟨B, rfl⟩ := Variant.kind_shape_set hkab.symm
                    obtain ⟨C, rfl⟩ := Variant.kind_shape_set hkbc.symm
                    simp only [Variant.wf] at ha
                    simp only [Variant.join, Variant.join_update,
                      RSet.join_update]
                    rw [RSet.extend_assoc A B C ha]
                  | table t1 =>
                    obtain ⟨t2, rfl⟩ := Variant.kind_shape_table hkab.symm
                    obtain ⟨t3, rfl⟩ := Variant.kind_shape_table hkbc.symm
                    simp only [Variant.wf, Bool.and_eq_true] at ha hb hc
                    simp only [Variant.join, Variant.join_update,
                      Variant.erase_tops]
                    rw [Variant.table.injEq]
                    have hasc12 : ascending
                        ((Table.join_update t1 t2).1.map Prod.fst) = true :=
                      Table.join_update_ascending t1 t2 ha.1
                    have hasc23 : ascending
                        ((Table.join_update t2 t3).1.map Prod.fst) = true :=
                      Table.join_update_ascending t2 t3 hb.1
                    refine Table.ext_ascending _ _ ?_ ?_ ?_
                    · rw [Table.erase_values_keys]
                      exact Table.join_update_ascending _ t3 hasc12
                    · rw [Table.erase_values_keys]
                      exact Table.join_update_ascending t1 _ ha.1
                    · intro k
                      rw [Table.get_erase_values, Table.get_erase_values,
                        Table.get_join_update _ t3 k hasc12 hc.1,
                        Table.get_join_update t1 t2 k ha.1 hb.1,
                        Table.get_join_update t1 _ k ha.1 hasc23,
                        Table.get_join_update t2 t3 k hb.1 hc.1]
                      cases hg1 : Table.get t1 k with
                      | none =>
                        cases hg2 : Table.get t2 k <;>
                          cases hg3 : Table.get t3 k <;> rfl
                      | some u =>
                        cases hg2 : Table.get t2 k with
                        | none => cases hg3 : Table.get t3 k <;> rfl
                        | some v =>
                          cases hg3 : Table.get t3 k with
                          | none => rfl
                          | some w =>
                            show some (((u.join v).join w).erase_tops) =
                              some ((u.join (v.join w)).erase_tops)
                            rw [Option.some.injEq]
                            have hszu := Table.get_sizeOf hg1
                            have hszv := Table.get_sizeOf hg2
                            have hszw := Table.get_sizeOf hg3
                            have hm : sizeOf u + sizeOf v + sizeOf w < n := by
                              have h1 : sizeOf (Variant.table t1) =
                                  1 + sizeOf t1 := by simp
                              have h2 : sizeOf (Variant.table t2) =
                                  1 + sizeOf t2 := by simp
                              have h3 : sizeOf (Variant.table t3) =
                                  1 + sizeOf t3 := by simp
                              omega
                            exact ih (sizeOf u + sizeOf v + sizeOf w) hm u v w
                              le_rfl (Table.get_wf ha.2 hg1)
                              (Table.get_wf hb.2 hg2) (Table.get_wf hc.2 hg3)
                · have hY := Variant.join_mismatch b c hkbc hbc hbi hcc hci
                  rw [hY, Variant.join_conflict_right a b c hac]
                  rcases Variant.join_kind a b hai with hk | hconf
                  · have hXnc : (Variant.join a b).is_conflict = false :=
                      Variant.not_conflict_of_kind
                        (hk ▸ Variant.not_conflict_kind hac)
                    have hXni : (Variant.join a b).is_invalid = false :=
                      Variant.join_not_invalid a b hai
                    have hXk : (Variant.join a b).kind ≠ c.kind := by
                      rw [hk, hkab]
                      exact hkbc
                    rw [Variant.join_mismatch (Variant.join a b) c hXk hXnc
                      hXni hcc hci]
                    rw [Variant.erase_of_conflict _ (by simp
                      [Variant.is_conflict]),
                      Variant.erase_of_conflict _ (by simp
                      [Variant.is_conflict])]
                  · obtain ⟨p, q, hX⟩ := Variant.is_conflict_shape hconf
                    rw [hX, Variant.join_conflict_left,
                      Variant.erase_of_conflict _ (by simp
                      [Variant.is_conflict]),
                      Variant.erase_of_conflict _ (by simp
                      [Variant.is_conflict])]
              · have hX := Variant.join_mismatch a b hkab hac hai hbc hbi
                rw [hX, Variant.join_conflict_left]
                rcases Variant.join_kind b c hbi with hk | hconf
                · have hYnc : (Variant.join b c).is_conflict = false :=
                    Variant.not_conflict_of_kind
                      (hk ▸ Variant.not_conflict_kind hbc)
                  have hYni : (Variant.join b c).is_invalid = false :=
                    Variant.join_not_invalid b c hbi
                  have hYk : a.kind ≠ (Variant.join b c).kind := by
                    rw [hk]
                    exact hkab
                  rw [Variant.join_mismatch a (Variant.join b c) hYk hac hai
                    hYnc hYni]
                  rw [Variant.erase_of_conflict _ (by simp
                    [Variant.is_conflict]),
                    Variant.erase_of_conflict _ (by simp
                    [Variant.is_conflict])]
                · obtain ⟨p, q, hY⟩ := Variant.is_conflict_shape hconf
                  rw [hY, Variant.join_conflict_right a p q hac,
                    Variant.erase_of_conflict _ (by simp
                    [Variant.is_conflict]),
                    Variant.erase_of_conflict _ (by simp
                    [Variant.is_conflict])]

/-- C1 counterexample: the join is not a semilattice operation under
structural equality of variants.  Commutativity fails — joining mismatched
kinds records the operands in order, so
`join(Int 1, Str "a") = Conflict(Int 1, Str "a")` while
`join(Str "a", Int 1) = Conflict(Str "a", Int 1)` — and idempotence fails at
`Float(NaN)`: `NaN == NaN` is false in `f64`, so the float guard fails and
`join(Float(NaN), Float(NaN)) = Conflict(Float(NaN), Float(NaN))`. -/
theorem c1_join_comm_counterexample :
    ((Variant.join (.int 1) (.str "a") =
        Variant.join (.str "a") (.int 1)) = False) ∧
    ((Variant.join (.float RFloat.nan) (.float RFloat.nan) =
        .float RFloat.nan) = False) := by
  constructor
  · simp [Variant.join, Variant.join_update]
  · simp [Variant.join, Variant.join_update, RFloat.feq]

/-- C1 (amended): for well-formed variants (the canonical embedding of every
value the code builds), the join is idempotent under structural equality for
every NaN-free `v` — `join(v, v) == v`, including `Conflict` and
nested-`Table` variants; a `Float(NaN)` anywhere in `v` breaks idempotence,
see the counterexample — and it is commutative and associative up to erasure
of the payloads of the two lattice extremes: the results agree except
possibly for which pair of operands a `Conflict` records and which error
detail an `Invalid` carries. -/
theorem c1_join_semilattice_mod_tops (a b c v : Variant)
    (ha : a.wf = true) (hb : b.wf = true) (hc : c.wf = true)
    (hv : v.wf = true) (hn : v.nan_free = true) :
    Variant.join v v = v ∧
    (Variant.join a b).erase_tops = (Variant.join b a).erase_tops ∧
    (Variant.join (Variant.join a b) c).erase_tops =
      (Variant.join a (Variant.join b c)).erase_tops :=
  ⟨Variant.join_update_diag v v rfl hv hn, Variant.join_comm_erase a b ha hb,
    Variant.join_assoc_erase a b c ha hb hc⟩

/-- C1 witness: the amended laws at concrete inputs, with `v` a conflict
holding a nested table. -/
theorem c1_join_semilattice_mod_tops_witness :
    Variant.join
        (.conflict (.table [(Ident.nonIntern "k", .int 2)]) (.int 3))
        (.conflict (.table [(Ident.nonIntern "k", .int 2)]) (.int 3)) =
      .conflict (.table [(Ident.nonIntern "k", .int 2)]) (.int 3) ∧
    (Variant.join (.int 1) (.str "a")).erase_tops =
      (Variant.join (.str "a") (.int 1)).erase_tops ∧
    (Variant.join (Variant.join (.int 1) (.str "a")) (.set [])).erase_tops =
      (Variant.join (.int 1) (Variant.join (.str "a") (.set []))).erase_tops :=
  c1_join_semilattice_mod_tops (.int 1) (.str "a") (.set [])
    (.conflict (.table [(Ident.nonIntern "k", .int 2)]) (.int 3))
    rfl rfl (by simp [Variant.wf, ascending])
    (by simp [Variant.wf, Table.wf_values, ascending])
    (by simp [Variant.nan_free, Table.nan_free_values])

theorem char_digit_toNat {c : Char} (h : c.isDigit = true) :
    48 ≤ c.toNat ∧ c.toNat ≤ 57 := by
  simp only [Char.isDigit, Bool.and_eq_true, decide_eq_true_eq,
    ge_iff_le] at h
  obtain ⟨h1, h2⟩ := h
  exact ⟨UInt32.le_toNat_of_le (by norm_num [UInt32.size]) h1,
    UInt32.toNat_le_of_le (by norm_num [UInt32.size]) h2⟩

theorem digit_ofNat {d : Nat} (h : d < 10) :
    (Char.ofNat (48 + d)).toNat = 48 + d ∧
      (Char.ofNat (48 + d)).isDigit = true := by
  interval_cases d <;> exact ⟨by decide, by decide⟩

theorem ne_digit (c x : Char) (hc : c.isDigit = true)
    (hx : x.isDigit = false) : c ≠ x := by
  intro h
  rw [h, hx] at hc
  cases hc

theorem is_space_digit (c : Char) (hc : c.isDigit = true) :
    is_space c = false := by
  simp only [is_space, Bool.or_eq_false_iff, decide_eq_false_iff_not]
  exact ⟨⟨⟨ne_digit c ' ' hc (by decide), ne_digit c '\t' hc (by decide)⟩,
    ne_digit c '\n' hc (by decide)⟩, ne_digit c '\r' hc (by decide)⟩

theorem chars_to_nat_acc (s : List Char) (acc : Nat) :
    s.foldl (fun a c => a * 10 + (c.toNat - 48)) acc =
      acc * 10 ^ s.length + chars_to_nat s := by
  induction s generalizing acc with
  | nil => simp [chars_to_nat]
  | cons c t ih =>
    simp only [List.foldl_cons, List.length_cons, chars_to_nat]
    rw [ih (acc * 10 + (c.toNat - 48)), ih (0 * 10 + (c.toNat - 48))]
    ring

theorem chars_to_nat_append (a b : List Char) :
    chars_to_nat (a ++ b) =
      chars_to_nat a * 10 ^ b.length + chars_to_nat b := by
  simp only [chars_to_nat, List.foldl_append]
  rw [chars_to_nat_acc b (List.foldl _ 0 a)]
  rfl

theorem chars_to_nat_lt (s : List Char)
    (h : ∀ c ∈ s, c.isDigit = true) : chars_to_nat s < 10 ^ s.length := by
  induction s with
  | nil => simp [chars_to_nat]
  | cons c t ih =>
    have hc := char_digit_toNat (h c (List.mem_cons_self c t))
    have ht := ih fun x hx => h x (List.mem_cons_of_mem c hx)
    simp only [chars_to_nat, List.foldl_cons, List.length_cons]
    rw [chars_to_nat_acc t (0 * 10 + (c.toNat - 48))]
    have hd : c.toNat - 48 ≤ 9 := by omega
    calc (0 * 10 + (c.toNat - 48)) * 10 ^ t.length + chars_to_nat t
        ≤ 9 * 10 ^ t.length + chars_to_nat t := by
          have := Nat.mul_le_mul_right (10 ^ t.length)
            (show 0 * 10 + (c.toNat - 48) ≤ 9 by omega)
          omega
      _ < 9 * 10 ^ t.length + 10 ^ t.length := by omega
      _ = 10 ^ (t.length + 1) := by ring

theorem chars_to_nat_replicate_zeros (k : Nat) (s : List Char) :
    chars_to_nat (List.replicate k '0' ++ s) = chars_to_nat s := by
  induction k with
  | zero => simp
  | succ m ih =>
    simp only [List.replicate_succ, List.cons_append, chars_to_nat,
      List.foldl_cons]
    have : (0 : Nat) * 10 + ('0'.toNat - 48) = 0 := by decide
    rw [this]
    exact ih

theorem nat_to_chars_go_spec :
    ∀ n fuel, n < fuel →
      nat_to_chars_go fuel n ≠ [] ∧
      (∀ c ∈ nat_to_chars_go fuel n, c.isDigit = true) ∧
      chars_to_nat (nat_to_chars_go fuel n) = n := by
  intro n
  induction n using Nat.strong_induction_on with
  | _ n ih =>
    intro fuel hf
    cases fuel with
    | zero => omega
    | succ f =>
      by_cases h10 : n < 10
      · simp only [nat_to_chars_go, if_pos h10]
        obtain ⟨htn, hdg⟩ := digit_ofNat h10
        refine ⟨by simp, ?_, ?_⟩
        · intro c hcm
          rw [List.mem_singleton.mp hcm]
          exact hdg
        · simp [chars_to_nat, htn]
      · have hdiv : n / 10 < n := Nat.div_lt_self (by omega) (by omega)
        have hdivf : n / 10 < f := by omega
        obtain ⟨hne, hdg, hval⟩ := ih (n / 10) hdiv f hdivf
        obtain ⟨htn, hd10⟩ := digit_ofNat (Nat.mod_lt n (show 0 < 10 by
          omega))
        simp only [nat_to_chars_go, if_neg h10]
        refine ⟨by simp, ?_, ?_⟩
        · intro c hcm
          rcases List.mem_append.mp hcm with hc | hc
          · exact hdg c hc
          · rw [List.mem_singleton.mp hc]
            exact hd10
        · rw [chars_to_nat_append, hval]
          simp only [List.length_singleton, pow_one]
          have hone : chars_to_nat [Char.ofNat (48 + n % 10)] = n % 10 := by
            simp [chars_to_nat, htn]
          rw [hone]
          omega

theorem nat_to_chars_spec (n : Nat) :
    nat_to_chars n ≠ [] ∧
    (∀ c ∈ nat_to_chars n, c.isDigit = true) ∧
    chars_to_nat (nat_to_chars n) = n :=
  nat_to_chars_go_spec n (n + 1) (by omega)

theorem zero_pad_spec (w : Nat) (s : List Char) (hne : s ≠ [])
    (hs : ∀ c ∈ s, c.isDigit = true) :
    (∀ c ∈ zero_pad w s, c.isDigit = true) ∧
    chars_to_nat (zero_pad w s) = chars_to_nat s ∧
    (zero_pad w s).length = max w s.length ∧ zero_pad w s ≠ [] := by
  cases s with
  | nil => exact absurd rfl hne
  | cons c rest =>
    have hcd := hs c (List.mem_cons_self c rest)
    have hcne : ¬(c = '-') := ne_digit c '-' hcd (by decide)
    simp only [zero_pad, if_neg hcne]
    refine ⟨?_, ?_, ?_, ?_⟩
    · intro x hx
      rcases List.mem_append.mp hx with hx | hx
      · rw [List.eq_of_mem_replicate hx]
        decide
      · exact hs x hx
    · exact chars_to_nat_replicate_zeros _ _
    · simp only [List.length_append, List.length_replicate,
        List.length_cons]
      omega
    · simp

theorem drop_spaces_cons (c : Char) (l : List Char)
    (h : is_space c = false) : drop_spaces (c :: l) = c :: l := by
  simp [drop_spaces, List.dropWhile_cons, h]

theorem opt_sign_not (c : Char) (l : List Char) (h1 : ¬(c = '+'))
    (h2 : ¬(c = '-')) : opt_sign (c :: l) = (none, c :: l) := by
  simp [opt_sign, h1, h2]

theorem takedrop_digits (ds r : List Char)
    (hds : ∀ c ∈ ds, c.isDigit = true)
    (hr : r = [] ∨ ∃ c t, r = c :: t ∧ c.isDigit = false) :
    (ds ++ r).takeWhile Char.isDigit = ds ∧
      (ds ++ r).dropWhile Char.isDigit = r := by
  induction ds with
  | nil =>
    rcases hr with rfl | ⟨c, t, rfl, hc⟩
    · simp
    · simp [List.takeWhile_cons, List.dropWhile_cons, hc]
  | cons c t ih =>
    have hc := hds c (List.mem_cons_self c t)
    obtain ⟨h1, h2⟩ := ih fun x hx => hds x (List.mem_cons_of_mem c hx)
    simp [List.takeWhile_cons, List.dropWhile_cons, hc, h1, h2]

theorem take_digits_split (ds r : List Char) (hne : ds ≠ [])
    (hds : ∀ c ∈ ds, c.isDigit = true)
    (hr : r = [] ∨ ∃ c t, r = c :: t ∧ c.isDigit = false) :
    take_digits (ds ++ r) = (some ds, r) := by
  obtain ⟨h1, h2⟩ := takedrop_digits ds r hds hr
  simp [take_digits, h1, h2, List.isEmpty_iff, hne]

theorem money_roundtrip (v : Int) (h1 : i64_min < v) (h2 : v ≤ i64_max) :
    money_from_str (money_format v) = .ok v := by
  set n := v.natAbs with hn
  have habs : i64_wrapping_abs v = (n : Int) := by
    by_cases hv : v < 0
    · have hvm : ¬(v = i64_min) := by omega
      simp only [i64_wrapping_abs, if_pos hv, if_neg hvm]
      omega
    · simp only [i64_wrapping_abs, if_neg hv]
      omega
  obtain ⟨hdne, hdd, hdv⟩ := nat_to_chars_spec n
  have hitoc : int_to_chars (i64_wrapping_abs v) = nat_to_chars n := by
    rw [habs]
    simp only [int_to_chars]
    rw [if_neg (by omega : ¬((n : Int) < 0))]
    congr 1
  obtain ⟨hmagd, hmagv, hmaglen, hmagne⟩ :=
    zero_pad_spec 3 (nat_to_chars n) hdne hdd
  set mag := zero_pad 3 (nat_to_chars n) with hmagdef
  have hmaglen3 : 3 ≤ mag.length := by
    rw [hmaglen]
    omega
  set w := mag.take (mag.length - 2) with hwdef
  set f := mag.drop (mag.length - 2) with hfdef
  have hwf : w ++ f = mag := List.take_append_drop _ _
  have hwlen : w.length = mag.length - 2 := by
    rw [hwdef, List.length_take]
    omega
  have hflen : f.length = 2 := by
    rw [hfdef, List.length_drop]
    omega
  have hwne : w ≠ [] := by
    intro h
    rw [h] at hwlen
    simp at hwlen
    omega
  have hwd : ∀ c ∈ w, c.isDigit = true := fun c hc =>
    hmagd c (List.take_subset _ _ hc)
  have hfd : ∀ c ∈ f, c.isDigit = true := fun c hc =>
    hmagd c (List.drop_subset _ _ hc)
  have hval : chars_to_nat w * 100 + chars_to_nat f = n := by
    have happ := chars_to_nat_append w f
    rw [hwf, hflen] at happ
    rw [hmagv, hdv] at happ
    norm_num at happ
    omega
  have hF : chars_to_nat f < 100 := by
    have := chars_to_nat_lt f hfd
    rw [hflen] at this
    norm_num at this
    exact this
  have hnmax : (n : Int) ≤ i64_max := by
    simp only [i64_max, i64_min] at h1 h2 ⊢
    omega
  have hWmax : (chars_to_nat w : Int) ≤ i64_max := by
    have hle : chars_to_nat w ≤ n := by omega
    have : (chars_to_nat w : Int) ≤ (n : Int) := by exact_mod_cast hle
    omega
  have hFmax : (chars_to_nat f : Int) ≤ i64_max := by
    have : (chars_to_nat f : Int) < 100 := by exact_mod_cast hF
    simp only [i64_max]
    omega
  have hparsew : parse_i64 w = .ok ((chars_to_nat w : Int)) := by
    simp [parse_i64, not_lt.mpr hWmax]
  have hparsef : parse_i64 f = .ok ((chars_to_nat f : Int)) := by
    simp [parse_i64, not_lt.mpr hFmax]
  have hwhole : whole_value (some w) =
      .ok ((chars_to_nat w : Int) * 100) := by
    simp [whole_value, hparsew, Except.map]
  have hfrac : frac_value (some (some f)) =
      .ok ((chars_to_nat f : Int)) := by
    simp [frac_value, hparsef, hflen, Except.map]
  obtain ⟨c0, w0, hw0⟩ := List.exists_cons_of_ne_nil hwne
  have hc0d : c0.isDigit = true := hwd c0 (by
    rw [hw0]
    exact List.mem_cons_self _ _)
  set X := w ++ '.' :: f with hXdef
  have hXc : X = c0 :: (w0 ++ '.' :: f) := by
    rw [hXdef, hw0]
    rfl
  have e2 : opt_symbol ('$' :: X) = (true, X) := by
    simp only [opt_symbol]
    rw [hXc, drop_spaces_cons c0 _ (is_space_digit c0 hc0d), ← hXc]
  have e3 : opt_sign X = (none, X) := by
    rw [hXc]
    rw [opt_sign_not c0 _ (ne_digit c0 '+' hc0d (by decide))
      (ne_digit c0 '-' hc0d (by decide)), ← hXc]
  have e4 : take_digits X = (some w, '.' :: f) :=
    take_digits_split w ('.' :: f) hwne hwd
      (Or.inr ⟨'.', f, rfl, by decide⟩)
  have e5 : opt_frac ('.' :: f) = (some (some f), []) := by
    have hf0 := take_digits_split f [] (by
      intro h
      rw [h] at hflen
      simp at hflen) hfd (Or.inl rfl)
    rw [List.append_nil] at hf0
    simp [opt_frac, hf0]
  have hdsn : drop_spaces ([] : List Char) = [] := rfl
  have hformat : money_format v =
      (if v < 0 then ['-'] else []) ++ '$' :: X := by
    simp only [money_format]
    rw [hitoc, ← hmagdef, ← hwdef, ← hfdef, hXdef]
    simp [List.append_assoc]
  have hvaleq : (chars_to_nat w : Int) * 100 + (chars_to_nat f : Int) =
      (n : Int) := by exact_mod_cast hval
  by_cases hv : v < 0
  · rw [hformat, if_pos hv]
    have e1 : opt_sign ('-' :: '$' :: X) = (some '-', '$' :: X) := by
      simp only [opt_sign]
      norm_num
      exact drop_spaces_cons '$' X (by decide)
    simp only [List.singleton_append]
    simp only [money_from_str, e1, e2, e3, e4, e5, hdsn, hwhole, hfrac]
    norm_num
    omega
  · rw [hformat, if_neg hv]
    have e1 : opt_sign ('$' :: X) = (none, '$' :: X) := by
      simp [opt_sign]
    simp only [List.nil_append]
    simp only [money_from_str, e1, e2, e3, e4, e5, hdsn, hwhole, hfrac]
    norm_num
    omega

/-- C9: the Money round-trip law `from_str (format v) = Ok v` holds for every
i64 cents value except `i64::MIN`: for all `i64_min < v ≤ i64_max`,
`money_from_str (money_format v) = .ok v`, and the three scenario facts hold:
`format 1234 = "$12.34"`, `from_str "$12.34" = Ok 1234`,
`from_str "-$0.09" = Ok (-9)`. -/
theorem c9_money_roundtrip (v : Int) (h1 : i64_min < v) (h2 : v ≤ i64_max) :
    money_from_str (money_format v) = .ok v ∧
    money_format 1234 = "$12.34".toList ∧
    money_from_str ("$12.34".toList) = .ok 1234 ∧
    money_from_str ("-$0.09".toList) = .ok (-9) :=
  ⟨money_roundtrip v h1 h2, by decide, rfl, rfl⟩

theorem c9_money_roundtrip_witness :
    i64_min < (1234 : Int) ∧ (1234 : Int) ≤ i64_max ∧
    (money_from_str (money_format 1234) = .ok 1234 ∧
     money_format 1234 = "$12.34".toList ∧
     money_from_str ("$12.34".toList) = .ok 1234 ∧
     money_from_str ("-$0.09".toList) = .ok (-9)) :=
  ⟨by decide, by decide, c9_money_roundtrip 1234 (by decide) (by decide)⟩

/-- C9 counterexample: the round-trip law fails at `v = i64::MIN`.
`(-v).abs()` wraps to `i64::MIN` itself, so the formatted string is
`-$-92233720368547758.08`, which carries two minus signs and fails to
parse. -/
theorem c9_roundtrip_counterexample :
    (money_from_str (money_format i64_min) = Except.ok i64_min) = False := by
  have h : money_from_str (money_format i64_min) =
      Except.error "error in money value" := rfl
  simp [h]
